import Mathlib

/-!
Verification of the document-state reconciliation and consistency-verification
subsystem of the PRD-creator web app: the block parser (`parseDocumentBlocks`,
`parseIssuesFromResponse`), the document store (merge / snapshot / history
trimming on persistence), and the verification engine's apply-all path.

Strings are modelled as `List Char` (`Str`); JavaScript regular-expression
matching is modelled by explicit left-to-right scanners that implement the
deterministic behaviour of the concrete patterns used by the source
(`/~~~doc:([^\n]+)\n([\s\S]*?)~~~/g` and `/~~~issues\s*\n([\s\S]*?)~~~/`).
-/

namespace Apex

/-- Strings are lists of characters. -/
abbrev Str := List Char

/-- The JavaScript whitespace set used by `String.prototype.trim` and by the
regex class `\s`: tab, LF, VT, FF, CR, space, NBSP, and the Unicode space
separators, line/paragraph separators and BOM. -/
def isWS (c : Char) : Bool :=
  c.toNat ∈ [9, 10, 11, 12, 13, 32, 160, 0x1680, 0x2000, 0x2001, 0x2002,
    0x2003, 0x2004, 0x2005, 0x2006, 0x2007, 0x2008, 0x2009, 0x200A,
    0x2028, 0x2029, 0x202F, 0x205F, 0x3000, 0xFEFF]

/-- JavaScript `String.prototype.trim`: strip leading and trailing whitespace. -/
def trim (s : Str) : Str :=
  ((s.dropWhile isWS).reverse.dropWhile isWS).reverse

/-- Index of the first occurrence of `pat` as a contiguous substring of `s`
(leftmost match position of a literal pattern). -/
def findSub (pat : Str) : Str → Option Nat
  | [] => if pat.isPrefixOf [] then some 0 else none
  | c :: tl =>
    if pat.isPrefixOf (c :: tl) then some 0
    else (findSub pat tl).map (· + 1)

/-- Whether `pat` occurs as a contiguous substring of `s`. -/
def containsSub (pat s : Str) : Bool :=
  (findSub pat s).isSome

/-- The opening marker of a document block: `~~~doc:`. -/
def marker : Str := "~~~doc:".data

/-- The fence `~~~` that closes a block. -/
def fence : Str := "~~~".data

/-- One attempt of the document-block regex `~~~doc:([^\n]+)\n([\s\S]*?)~~~`
anchored at the start of `s`.  The label is the (nonempty) run of
non-newline characters after the marker, the content is the shortest run
ending at the first closing `~~~`; returns the raw label, raw content, and
the remainder of the input after the match. -/
def tryBlock (s : Str) : Option (Str × Str × Str) :=
  if marker.isPrefixOf s then
    let afterMarker := s.drop marker.length
    let label := afterMarker.takeWhile (fun c => !(c == '\n'))
    match afterMarker.dropWhile (fun c => !(c == '\n')) with
    | [] => none
    | _ :: body =>
      if label.isEmpty then none
      else
        match findSub fence body with
        | some q => some (label, body.take q, body.drop (q + fence.length))
        | none => none
  else none

/-- Fuelled scanner for the global regex: walks the input left to right,
extracting each leftmost non-overlapping match and resuming after it.
Returns the input with all matched regions deleted, together with the list
of raw `(label, content)` pairs in order of appearance.  `fuel ≥ s.length`
always suffices. -/
def scanB : Nat → Str → Str × List (Str × Str)
  | 0, s => (s, [])
  | _ + 1, [] => ([], [])
  | fuel + 1, c :: tl =>
    match tryBlock (c :: tl) with
    | some (label, content, rest) =>
      let p := scanB fuel rest
      (p.1, (label, content) :: p.2)
    | none =>
      let p := scanB fuel tl
      (c :: p.1, p.2)

/-- Scan a whole input for document blocks (fuel instantiated). -/
def scanBlocks (s : Str) : Str × List (Str × Str) :=
  scanB s.length s

/-- `documents[k] = v` on a JavaScript object modelled as an association list:
overwrite the existing binding in place, or append a new one. -/
def setDoc : List (Str × Str) → Str → Str → List (Str × Str)
  | [], k, v => [(k, v)]
  | (k', v') :: tl, k, v =>
    if k' = k then (k, v) :: tl else (k', v') :: setDoc tl k v

/-- Build the `documents` record from the matched blocks: trim label and
content of each match and assign in order (later matches overwrite earlier
ones). -/
def buildDocs (blocks : List (Str × Str)) : List (Str × Str) :=
  blocks.foldl (fun m b => setDoc m (trim b.1) (trim b.2)) []

/-- `parseDocumentBlocks` from `src/lib/utils.ts`: extract all complete
`~~~doc:Label\n...~~~` blocks, return the input with the matched regions
removed and trimmed (`cleanText`) and the documents mapping. -/
def parseDocumentBlocks (text : Str) : Str × List (Str × Str) :=
  (trim (scanBlocks text).1, buildDocs (scanBlocks text).2)

/-- The matched blocks of an input with label and content trimmed, in order
of appearance. -/
def trimmedBlocks (text : Str) : List (Str × Str) :=
  (scanBlocks text).2.map (fun b => (trim b.1, trim b.2))

/-- The value of the last pair with first component `k` (last write). -/
def lastVal (k : Str) : List (Str × Str) → Option Str
  | [] => none
  | b :: bs =>
    match lastVal k bs with
    | some v => some v
    | none => if b.1 = k then some b.2 else none

/-- Decides that an input contains no complete (closed) `~~~doc:` block:
the block pattern matches at no position. -/
def noClosedBlock (s : Str) : Bool :=
  (List.range (s.length + 1)).all (fun n => (tryBlock (s.drop n)).isNone)

/-- The finalized assistant message built by `handleStop` in `ChatPanel`
from the accumulated partial stream: `cleanText || streamingContent`. -/
def handleStopContent (s : Str) : Str :=
  if (parseDocumentBlocks s).1.isEmpty then s else (parseDocumentBlocks s).1

/-- A complete well-formed document block `~~~doc:<label>\n<content>~~~`. -/
def docBlock (l c : Str) : Str :=
  marker ++ l ++ '\n' :: (c ++ fence)

/-- Assemble prose segments interleaved with document blocks, ending in a
final prose tail. -/
def assemble : List (Str × Str × Str) → Str → Str
  | [], tail => tail
  | (p, l, c) :: rest, tail => p ++ (docBlock l c ++ assemble rest tail)

/-- The prose part of an assembled input (blocks deleted). -/
def proseOf : List (Str × Str × Str) → Str → Str
  | [], tail => tail
  | (p, _, _) :: rest, tail => p ++ proseOf rest tail

/-- Side conditions for a `(prose, label, content)` segment: prose free of
tildes, label nonempty and single-line, content free of tildes. -/
def segOk (seg : Str × Str × Str) : Prop :=
  '~' ∉ seg.1 ∧ seg.2.1 ≠ [] ∧ '\n' ∉ seg.2.1 ∧ '~' ∉ seg.2.2

instance (seg : Str × Str × Str) : Decidable (segOk seg) := by
  unfold segOk
  infer_instance

end Apex

namespace Apex

/-- Issue severity (`VerifierIssue.severity`). -/
inductive Severity
  | critical
  | warning
  | info
deriving DecidableEq

/-- A structured issue produced by the verification pass (`VerifierIssue`). -/
structure VerifierIssue where
  id : Str
  severity : Severity
  type : Str
  title : Str
  description : Str
  affectedDocs : List Str
  evidence : List (Str × Str)
  fix : Str
  targetDoc : Str
deriving DecidableEq

/-- The verifier phase state machine (`VerifierPhase`). -/
inductive VPhase
  | idle
  | verifying
  | ready
  | harmonizing
  | done
deriving DecidableEq

/-- Caller-owned verifier state (`VerifierState`). -/
structure VerifierState where
  phase : VPhase
  issues : List VerifierIssue
  summary : Str
  dismissed : List Str
  applied : List Str
  rawReport : Str
deriving DecidableEq

/-- The outstanding issues considered by apply-all: not dismissed, not already
applied, and not of severity info. -/
def remainingIssues (vs : VerifierState) : List VerifierIssue :=
  vs.issues.filter
    (fun i => !(vs.dismissed.contains i.id) && !(vs.applied.contains i.id)
      && !(i.severity == Severity.info))

/-- Severity rendered as in the harmonize request text. -/
def severityText : Severity → Str
  | Severity.critical => "critical".data
  | Severity.warning => "warning".data
  | Severity.info => "info".data

/-- One line of the apply-all harmonize request:
`- ID (severity): Title\n  Target: ...\n  Fix: ...`. -/
def issueLine (i : VerifierIssue) : Str :=
  "- ".data ++ i.id ++ " (".data ++ severityText i.severity ++ "): ".data
    ++ i.title ++ "\n  Target: ".data ++ i.targetDoc ++ "\n  Fix: ".data ++ i.fix

/-- The report text sent by apply-all. -/
def applyAllReport (rem : List VerifierIssue) : Str :=
  "Fix ALL of the following issues:\n\n".data
    ++ List.intercalate "\n\n".data (rem.map issueLine)

/-- Document source tag of a history snapshot (`DocVersion.source`). -/
inductive DocSource
  | generated
  | edited
  | harmonized
deriving DecidableEq

/-- An immutable history snapshot (`DocVersion`). -/
structure DocVersion where
  docType : Str
  content : Str
  timestamp : Nat
  source : DocSource
deriving DecidableEq

/-- The session aggregate, restricted to the fields the claims are about
(identity/metadata fields of the source `Session` are omitted). -/
structure Session where
  messages : List Str
  documents : List (Str × Str)
  documentHistory : List DocVersion
  updatedAt : Nat
deriving DecidableEq

/-- `handleSnapshotVersions` from the session page: append one `DocVersion`
per entry of `docs` (all stamped `now`) to the history. -/
def handleSnapshotVersions (sess : Session) (docs : List (Str × Str))
    (source : DocSource) (now : Nat) : Session :=
  { sess with
    documentHistory :=
      sess.documentHistory ++ docs.map (fun e => DocVersion.mk e.1 e.2 now source),
    updatedAt := now }

/-- `handleDocumentsUpdate` from the session page: last-write-wins merge of
`newDocs` into the live documents record. -/
def handleDocumentsUpdate (sess : Session) (newDocs : List (Str × Str))
    (now : Nat) : Session :=
  { sess with
    documents := newDocs.foldl (fun m e => setDoc m e.1 e.2) sess.documents,
    updatedAt := now }

/-- Observable trace of one `applyAllFixes` invocation: the `updateState`
calls made (each spreads the original closed-over state), the harmonize
request text sent (if any), the `onSnapshotVersions` calls, and the
`onDocumentsUpdate` calls. -/
structure ApplyAllTrace where
  updates : List VerifierState
  request : Option Str
  snapshots : List (List (Str × Str) × DocSource)
  merges : List (List (Str × Str))
deriving DecidableEq

/-- `applyAllFixes` from the verifier panel, as a function of the current
verifier state, the documents prop, and the outcome of the harmonize
round-trip (`resp`): early-return when nothing is outstanding; otherwise
set phase harmonizing, snapshot the current documents once with source
harmonized, send one request built from the outstanding issues, and on
success merge any parsed corrected documents and mark the outstanding
issues applied, while on failure reset the phase to ready. -/
def applyAllFixes (vs : VerifierState) (docs : List (Str × Str))
    (resp : Except Unit Str) : ApplyAllTrace :=
  let remaining := remainingIssues vs
  if remaining.isEmpty then
    ApplyAllTrace.mk [] none [] []
  else
    match resp with
    | Except.error _ =>
      ApplyAllTrace.mk
        [{ vs with phase := VPhase.harmonizing }, { vs with phase := VPhase.ready }]
        (some (applyAllReport remaining))
        [(docs, DocSource.harmonized)]
        []
    | Except.ok full =>
      let corrected := (parseDocumentBlocks full).2
      ApplyAllTrace.mk
        [{ vs with phase := VPhase.harmonizing },
         { vs with phase := VPhase.done,
                   applied := vs.applied ++ remaining.map (fun i => i.id) }]
        (some (applyAllReport remaining))
        [(docs, DocSource.harmonized)]
        (if corrected.isEmpty then [] else [corrected])

/-- The marker opening an issues block. -/
def issuesMarker : Str := "~~~issues".data

/-- Index of the last newline in a character list, if any. -/
def lastNewline : Str → Option Nat
  | [] => none
  | c :: tl =>
    match lastNewline tl with
    | some j => some (j + 1)
    | none => if c = '\n' then some 0 else none

/-- One attempt of the issues regex `~~~issues\s*\n([\s\S]*?)~~~` anchored at
the start of `s`: after the literal marker, greedy `\s*` followed by `\n`
consumes up to the last newline of the whitespace run, and the interior is
the shortest run ending at the first closing `~~~`. -/
def tryIssues (s : Str) : Option Str :=
  if issuesMarker.isPrefixOf s then
    let rest := s.drop issuesMarker.length
    match lastNewline (rest.takeWhile isWS) with
    | none => none
    | some j =>
      let body := rest.drop (j + 1)
      match findSub fence body with
      | some q => some (body.take q)
      | none => none
  else none

/-- Leftmost match of the issues block pattern. -/
def findIssuesBlock : Str → Option Str
  | [] => none
  | c :: tl =>
    match tryIssues (c :: tl) with
    | some i => some i
    | none => findIssuesBlock tl

/-- `parseIssuesFromResponse` from the verifier panel.  `JSON.parse` is the
host runtime's JSON parser (an external collaborator, not code of this
repository); it is passed in as an arbitrary fallible parsing function, and
the `try`/`catch` around it becomes `Option.getD []`. -/
def parseIssuesFromResponse (jsonParseIssues : Str → Option (List VerifierIssue))
    (text : Str) : List VerifierIssue :=
  match findIssuesBlock text with
  | none => []
  | some interior => (jsonParseIssues interior).getD []

/-- A JSON parser that accepts nothing (used to witness the malformed case). -/
def jsonParseNone : Str → Option (List VerifierIssue) := fun _ => none

/-- `MAX_VERSIONS_PER_DOC` from `src/lib/storage` (gemini.ts file). -/
def MAX_VERSIONS_PER_DOC : Nat := 3

/-- `MAX_MESSAGES` from `src/lib/storage`. -/
def MAX_MESSAGES : Nat := 200

/-- Stable insertion of `v` into a list sorted by descending timestamp
(models one step of the stable JS `sort((a, b) => b.timestamp - a.timestamp)`). -/
def insertDesc (v : DocVersion) : List DocVersion → List DocVersion
  | [] => [v]
  | w :: ws => if w.timestamp < v.timestamp then v :: w :: ws else w :: insertDesc v ws

/-- Stable sort by descending timestamp. -/
def sortDesc (l : List DocVersion) : List DocVersion :=
  l.foldl (fun acc v => insertDesc v acc) []

/-- Stable insertion of `v` into a list sorted by ascending timestamp. -/
def insertAsc (v : DocVersion) : List DocVersion → List DocVersion
  | [] => [v]
  | w :: ws => if v.timestamp < w.timestamp then v :: w :: ws else w :: insertAsc v ws

/-- Stable sort by ascending timestamp (models the stable JS
`sort((a, b) => a.timestamp - b.timestamp)`). -/
def sortAsc (l : List DocVersion) : List DocVersion :=
  l.foldl (fun acc v => insertAsc v acc) []

/-- Append `v` to the group keyed by its `docType`, creating the group at the
end when absent (models `(byDocType[v.docType] ??= []).push(v)`). -/
def pushGroup : List (Str × List DocVersion) → DocVersion → List (Str × List DocVersion)
  | [], v => [(v.docType, [v])]
  | (k, g) :: rest, v =>
    if k = v.docType then (k, g ++ [v]) :: rest else (k, g) :: pushGroup rest v

/-- Group a history by `docType`, preserving arrival order inside each group. -/
def groupByDocType (h : List DocVersion) : List (Str × List DocVersion) :=
  h.foldl pushGroup []

/-- The group content for key `k` (empty when the key has no group). -/
def groupContents : List (Str × List DocVersion) → Str → List DocVersion
  | [], _ => []
  | g :: rest, k => if g.1 = k then g.2 else groupContents rest k

/-- The history-trimming loop of `trimSession`: per `docType` keep the first
`MAX_VERSIONS_PER_DOC` of the descending-timestamp sort, then re-sort
everything kept ascending for storage. -/
def trimHistory (h : List DocVersion) : List DocVersion :=
  sortAsc ((groupByDocType h).foldl
    (fun acc g => acc ++ (sortDesc g.2).take MAX_VERSIONS_PER_DOC) [])

/-- `trimSession` from `src/lib/storage`: cap messages to the most recent
`MAX_MESSAGES` and trim the document history when nonempty. -/
def trimSession (s : Session) : Session :=
  { s with
    messages :=
      if MAX_MESSAGES < s.messages.length then
        s.messages.drop (s.messages.length - MAX_MESSAGES)
      else s.messages,
    documentHistory :=
      if 0 < s.documentHistory.length then trimHistory s.documentHistory
      else s.documentHistory }

/-- The session payload actually persisted by `saveSession`: the trimmed
copy of the in-memory session (which itself is left untouched). -/
def savedSession (s : Session) : Session := trimSession s

end Apex

namespace Apex

theorem tryBlock_nil : tryBlock [] = none := by
  simp [tryBlock, marker, List.isPrefixOf]

theorem tryBlock_rest_lt {s l c r : Str} (h : tryBlock s = some (l, c, r)) :
    r.length < s.length := by
  simp only [tryBlock] at h
  split at h
  case isFalse => exact absurd h (by simp)
  case isTrue hpre =>
    split at h
    case h_1 => exact absurd h (by simp)
    case h_2 x body hbody =>
      split at h
      case isTrue => exact absurd h (by simp)
      case isFalse hlab =>
        split at h
        case h_2 => exact absurd h (by simp)
        case h_1 q hq =>
          injection h with h'
          have hr : r = body.drop (q + fence.length) :=
            (congrArg (fun t => t.2.2) h').symm
          have h1 : r.length ≤ body.length := by
            rw [hr, List.length_drop]
            omega
          have h2 : body.length + 1 ≤ (s.drop marker.length).length := by
            have hb := congrArg List.length hbody
            simp at hb
            have hle := (List.dropWhile_sublist
              (l := s.drop marker.length) (p := fun c => !(c == '\n'))).length_le
            omega
          have h3 : marker.length ≤ s.length :=
            (List.isPrefixOf_iff_prefix.mp hpre).length_le
          have h4 : (s.drop marker.length).length = s.length - marker.length :=
            List.length_drop _ _
          have h5 : marker.length = 7 := by decide
          omega

theorem scanB_fuel : ∀ (n f : Nat) (s : Str), s.length ≤ n → s.length ≤ f →
    scanB f s = scanB s.length s := by
  intro n
  induction n with
  | zero =>
    intro f s hn _
    have : s = [] := List.length_eq_zero.mp (Nat.le_zero.mp hn)
    subst this
    cases f <;> rfl
  | succ n ih =>
    intro f s hn hf
    match s, f with
    | [], 0 => rfl
    | [], f + 1 => rfl
    | c :: tl, f + 1 =>
      have hn' : tl.length ≤ n := by simpa using hn
      have hf' : tl.length ≤ f := by simpa using hf
      simp only [List.length_cons, scanB]
      cases htb : tryBlock (c :: tl) with
      | some v =>
        obtain ⟨l, cont, rest⟩ := v
        have hlt : rest.length ≤ tl.length := by
          have := tryBlock_rest_lt htb
          simp at this
          omega
        have h1 : scanB f rest = scanB rest.length rest :=
          ih f rest (by omega) (by omega)
        have h2 : scanB tl.length rest = scanB rest.length rest :=
          ih tl.length rest (by omega) (by omega)
        simp [h1, h2]
      | none =>
        have h1 : scanB f tl = scanB tl.length tl :=
          ih f tl hn' hf'
        simp [h1]

theorem scanBlocks_eq_some {s l c r : Str} (h : tryBlock s = some (l, c, r)) :
    scanBlocks s = ((scanBlocks r).1, (l, c) :: (scanBlocks r).2) := by
  match s with
  | [] => rw [tryBlock_nil] at h; exact absurd h (by simp)
  | x :: tl =>
    have hlt : r.length ≤ tl.length := by
      have := tryBlock_rest_lt h
      simp at this
      omega
    show scanB (tl.length + 1) (x :: tl) = _
    simp only [scanB, h]
    rw [scanB_fuel tl.length tl.length r hlt hlt]
    rfl

theorem scanBlocks_cons_none {c : Char} {tl : Str} (h : tryBlock (c :: tl) = none) :
    scanBlocks (c :: tl) = (c :: (scanBlocks tl).1, (scanBlocks tl).2) := by
  show scanB (tl.length + 1) (c :: tl) = _
  simp only [scanB, h]
  rfl

end Apex

namespace Apex

theorem findSub_isPrefix : ∀ {s : Str} {pat : Str} {j : Nat},
    findSub pat s = some j → pat.isPrefixOf (s.drop j) = true := by
  intro s
  induction s with
  | nil =>
    intro pat j h
    simp only [findSub] at h
    split at h
    case isTrue hp =>
      injection h with h'
      subst h'
      simpa using hp
    case isFalse => exact absurd h (by simp)
  | cons c tl ih =>
    intro pat j h
    simp only [findSub] at h
    split at h
    case isTrue hp =>
      injection h with h'
      subst h'
      simpa using hp
    case isFalse hp =>
      cases hf : findSub pat tl with
      | none => rw [hf] at h; exact absurd h (by simp)
      | some j' =>
        rw [hf] at h
        simp at h
        subst h
        simpa using ih hf

theorem findSub_min : ∀ {s : Str} {pat : Str} {j : Nat},
    findSub pat s = some j → ∀ i < j, pat.isPrefixOf (s.drop i) = false := by
  intro s
  induction s with
  | nil =>
    intro pat j h i hi
    simp only [findSub] at h
    split at h
    case isTrue => injection h with h'; omega
    case isFalse => exact absurd h (by simp)
  | cons c tl ih =>
    intro pat j h i hi
    simp only [findSub] at h
    split at h
    case isTrue => injection h with h'; omega
    case isFalse hp =>
      cases hf : findSub pat tl with
      | none => rw [hf] at h; exact absurd h (by simp)
      | some j' =>
        rw [hf] at h
        simp at h
        subst h
        match i with
        | 0 => simpa using eq_false_of_ne_true hp
        | i + 1 =>
          have := ih hf i (by omega)
          simpa using this

theorem findSub_isSome_of : ∀ {s : Str} {pat : Str} {j : Nat},
    pat.isPrefixOf (s.drop j) = true → (findSub pat s).isSome := by
  intro s
  induction s with
  | nil =>
    intro pat j h
    simp at h
    simp [findSub, h]
  | cons c tl ih =>
    intro pat j h
    simp only [findSub]
    split
    case isTrue => simp
    case isFalse hp =>
      match j with
      | 0 => rw [List.drop_zero] at h; exact absurd h hp
      | j + 1 =>
        simp only [List.drop_succ_cons] at h
        have := ih h
        simpa using this

theorem containsSub_iff {pat s : Str} :
    containsSub pat s = true ↔ ∃ j, pat.isPrefixOf (s.drop j) = true := by
  constructor
  · intro h
    simp only [containsSub, Option.isSome_iff_exists] at h
    obtain ⟨j, hj⟩ := h
    exact ⟨j, findSub_isPrefix hj⟩
  · intro ⟨j, hj⟩
    simpa [containsSub] using findSub_isSome_of hj

theorem containsSub_mem_of_head {s : Str} {a : Char} {pa : Str}
    (h : containsSub (a :: pa) s = true) : a ∈ s := by
  obtain ⟨j, hj⟩ := containsSub_iff.mp h
  match hd : s.drop j with
  | [] => rw [hd] at hj; simp [List.isPrefixOf] at hj
  | c :: tl =>
    rw [hd] at hj
    simp only [List.isPrefixOf, Bool.and_eq_true, beq_iff_eq] at hj
    have : a ∈ s.drop j := by rw [hd]; exact hj.1 ▸ List.mem_cons_self c tl
    exact List.drop_subset j s this

end Apex

namespace Apex

theorem trim_prefix_dropWhile (s : Str) : trim s <+: s.dropWhile isWS := by
  unfold trim
  have h : ((s.dropWhile isWS).reverse.dropWhile isWS) <:+ (s.dropWhile isWS).reverse :=
    List.dropWhile_suffix isWS
  have := List.reverse_prefix.mpr h
  simpa using this

theorem mem_of_mem_trim {c : Char} {s : Str} (h : c ∈ trim s) : c ∈ s := by
  have h1 : c ∈ s.dropWhile isWS := (trim_prefix_dropWhile s).sublist.subset h
  exact (List.dropWhile_suffix isWS).sublist.subset h1

theorem containsSub_of_initialPart {pat u x : Str} (hp : u <+: x)
    (h : containsSub pat u = true) : containsSub pat x = true := by
  obtain ⟨j, hj⟩ := containsSub_iff.mp h
  obtain ⟨t, ht⟩ := hp
  apply containsSub_iff.mpr
  refine ⟨j, ?_⟩
  rw [← ht, List.drop_append_eq_append_drop]
  have h1 : pat <+: u.drop j := List.isPrefixOf_iff_prefix.mp hj
  have h2 : u.drop j <+: u.drop j ++ t.drop (j - u.length) := List.prefix_append _ _
  exact List.isPrefixOf_iff_prefix.mpr (h1.trans h2)

theorem containsSub_of_suffix {pat u x : Str} (hs : u <:+ x)
    (h : containsSub pat u = true) : containsSub pat x = true := by
  obtain ⟨j, hj⟩ := containsSub_iff.mp h
  obtain ⟨t, ht⟩ := hs
  apply containsSub_iff.mpr
  refine ⟨t.length + j, ?_⟩
  rw [← ht, List.drop_append_eq_append_drop]
  have h0 : t.drop (t.length + j) = [] := by
    apply List.drop_eq_nil_iff.mpr
    omega
  rw [h0]
  simpa using hj

theorem containsSub_trim {pat s : Str} (h : containsSub pat (trim s) = true) :
    containsSub pat s = true :=
  containsSub_of_suffix (List.dropWhile_suffix isWS)
    (containsSub_of_initialPart (trim_prefix_dropWhile s) h)

end Apex

namespace Apex

theorem isPrefixOf_append_self (a b : Str) : a.isPrefixOf (a ++ b) = true :=
  List.isPrefixOf_iff_prefix.mpr (List.prefix_append a b)

theorem isPrefixOf_cons_ne {a c : Char} (pa tl : Str) (h : a ≠ c) :
    (a :: pa).isPrefixOf (c :: tl) = false := by
  simp [List.isPrefixOf, beq_eq_false_iff_ne.mpr h]

theorem marker_cons : marker = '~' :: "~~doc:".data := by decide

theorem fence_cons : fence = '~' :: "~~".data := by decide

theorem tryBlock_none_head {c : Char} (tl : Str) (h : c ≠ '~') :
    tryBlock (c :: tl) = none := by
  have hf : marker.isPrefixOf (c :: tl) = false := by
    rw [marker_cons]
    exact isPrefixOf_cons_ne _ _ (fun hc => h hc.symm)
  simp [tryBlock, hf]

theorem scan_prose (p s : Str) (h : '~' ∉ p) :
    scanBlocks (p ++ s) = (p ++ (scanBlocks s).1, (scanBlocks s).2) := by
  induction p with
  | nil => simp
  | cons c p' ih =>
    have hc : c ≠ '~' := fun hc => h (hc ▸ List.mem_cons_self c p')
    have h' : '~' ∉ p' := fun hm => h (List.mem_cons_of_mem c hm)
    rw [List.cons_append, scanBlocks_cons_none (tryBlock_none_head _ hc), ih h']
    simp

theorem scanBlocks_nil : scanBlocks [] = ([], []) := rfl

theorem scan_prose_only (t : Str) (h : '~' ∉ t) : scanBlocks t = (t, []) := by
  have := scan_prose t [] h
  simpa [scanBlocks_nil] using this

theorem takeWhile_line (l x : Str) (h : '\n' ∉ l) :
    (l ++ '\n' :: x).takeWhile (fun c => !(c == '\n')) = l := by
  induction l with
  | nil => simp [List.takeWhile]
  | cons a l' ih =>
    have ha : a ≠ '\n' := fun hc => h (hc ▸ List.mem_cons_self a l')
    have h' : '\n' ∉ l' := fun hm => h (List.mem_cons_of_mem a hm)
    simp [List.takeWhile, beq_eq_false_iff_ne.mpr ha, ih h']

theorem dropWhile_line (l x : Str) (h : '\n' ∉ l) :
    (l ++ '\n' :: x).dropWhile (fun c => !(c == '\n')) = '\n' :: x := by
  induction l with
  | nil => simp [List.dropWhile]
  | cons a l' ih =>
    have ha : a ≠ '\n' := fun hc => h (hc ▸ List.mem_cons_self a l')
    have h' : '\n' ∉ l' := fun hm => h (List.mem_cons_of_mem a hm)
    simp [List.dropWhile, beq_eq_false_iff_ne.mpr ha, ih h']

theorem findSub_append_self {pat : Str} (s : Str) (h : pat ≠ []) :
    findSub pat (pat ++ s) = some 0 := by
  match pat with
  | [] => exact absurd rfl h
  | a :: pa =>
    have hp : (a :: pa).isPrefixOf (a :: (pa ++ s)) = true := by
      have h2 := isPrefixOf_append_self (a :: pa) s
      rw [List.cons_append] at h2
      exact h2
    rw [List.cons_append]
    simp [findSub, hp]

theorem findSub_fence_at (c s : Str) (h : '~' ∉ c) :
    findSub fence (c ++ (fence ++ s)) = some c.length := by
  induction c with
  | nil =>
    rw [List.nil_append]
    exact findSub_append_self s (by decide)
  | cons a c' ih =>
    have ha : a ≠ '~' := fun hc => h (hc ▸ List.mem_cons_self a c')
    have h' : '~' ∉ c' := fun hm => h (List.mem_cons_of_mem a hm)
    rw [List.cons_append, findSub]
    have hf : fence.isPrefixOf (a :: (c' ++ (fence ++ s))) = false := by
      rw [fence_cons]
      exact isPrefixOf_cons_ne _ _ (fun hc => ha hc.symm)
    simp [hf, ih h']

theorem tryBlock_docBlock {l c : Str} (s : Str) (hl : l ≠ []) (hnl : '\n' ∉ l)
    (hc : '~' ∉ c) : tryBlock (docBlock l c ++ s) = some (l, c, s) := by
  have hshape : docBlock l c ++ s = marker ++ (l ++ '\n' :: (c ++ (fence ++ s))) := by
    simp [docBlock, List.append_assoc]
  rw [hshape]
  have h1 : marker.isPrefixOf (marker ++ (l ++ '\n' :: (c ++ (fence ++ s)))) = true :=
    isPrefixOf_append_self _ _
  have h2 : (marker ++ (l ++ '\n' :: (c ++ (fence ++ s)))).drop marker.length
      = l ++ '\n' :: (c ++ (fence ++ s)) := List.drop_left _ _
  have h5 : l.isEmpty = false := by
    cases l with
    | nil => exact absurd rfl hl
    | cons a l' => rfl
  have h7 : (c ++ (fence ++ s)).take c.length = c := List.take_left _ _
  have h8 : (c ++ (fence ++ s)).drop (c.length + fence.length) = s := by
    rw [List.drop_append fence.length]
    exact List.drop_left _ _
  simp only [tryBlock, h1, if_true, h2, takeWhile_line l _ hnl, dropWhile_line l _ hnl,
    h5, Bool.false_eq_true, if_false, findSub_fence_at c s hc, h7, h8]

theorem scan_assemble : ∀ (segs : List (Str × Str × Str)) (tail : Str),
    (∀ seg ∈ segs, segOk seg) → '~' ∉ tail →
    scanBlocks (assemble segs tail)
      = (proseOf segs tail, segs.map (fun seg => (seg.2.1, seg.2.2))) := by
  intro segs
  induction segs with
  | nil =>
    intro tail _ ht
    simpa [assemble, proseOf] using scan_prose_only tail ht
  | cons seg rest ih =>
    intro tail hok ht
    obtain ⟨p, l, c⟩ := seg
    obtain ⟨hp, hl, hnl, hc⟩ := hok (p, l, c) (List.mem_cons_self _ _)
    have hrest : ∀ s ∈ rest, segOk s := fun s hs => hok s (List.mem_cons_of_mem _ hs)
    rw [assemble, scan_prose _ _ hp,
      scanBlocks_eq_some (tryBlock_docBlock (assemble rest tail) hl hnl hc),
      ih tail hrest ht]
    simp [proseOf]

end Apex

namespace Apex

theorem lookup_setDoc (m : List (Str × Str)) (k v k' : Str) :
    List.lookup k' (setDoc m k v) = if k = k' then some v else List.lookup k' m := by
  induction m with
  | nil =>
    by_cases hk : k = k'
    · subst hk; simp [setDoc, List.lookup]
    · simp [setDoc, List.lookup, hk, beq_eq_false_iff_ne.mpr (fun h => hk h.symm)]
  | cons e tl ih =>
    obtain ⟨a, b⟩ := e
    by_cases hak : a = k
    · subst hak
      by_cases hk : a = k'
      · subst hk; simp [setDoc, List.lookup]
      · simp [setDoc, List.lookup, hk, beq_eq_false_iff_ne.mpr (fun h => hk h.symm)]
    · by_cases hk : k = k'
      · subst hk
        have hka : ¬ (k = a) := fun h => hak h.symm
        simp [setDoc, hak, List.lookup, beq_eq_false_iff_ne.mpr hka, ih]
      · by_cases hka : k' = a
        · subst hka
          simp [setDoc, hak, List.lookup, hk]
        · simp [setDoc, hak, List.lookup, beq_eq_false_iff_ne.mpr hka, ih, hk]

theorem lookup_foldl_setDoc : ∀ (bs m : List (Str × Str)) (k : Str),
    List.lookup k (bs.foldl (fun m b => setDoc m b.1 b.2) m)
      = match lastVal k bs with
        | some v => some v
        | none => List.lookup k m := by
  intro bs
  induction bs with
  | nil => intro m k; simp [lastVal]
  | cons b bs ih =>
    intro m k
    rw [List.foldl_cons, ih]
    cases hlv : lastVal k bs with
    | some v => simp [lastVal, hlv]
    | none =>
      rw [lookup_setDoc]
      by_cases hk : b.1 = k
      · simp [lastVal, hlv, hk]
      · simp [lastVal, hlv, hk]

theorem lastVal_append (k : Str) (xs ys : List (Str × Str)) :
    lastVal k (xs ++ ys)
      = match lastVal k ys with
        | some v => some v
        | none => lastVal k xs := by
  induction xs with
  | nil =>
    cases h : lastVal k ys <;> simp [lastVal, h]
  | cons x xs ih =>
    rw [List.cons_append]
    show (match lastVal k (xs ++ ys) with
      | some v => some v
      | none => if x.1 = k then some x.2 else none) = _
    rw [ih]
    cases h : lastVal k ys with
    | some v => simp
    | none => cases h2 : lastVal k xs <;> simp [lastVal, h2]

theorem lastVal_eq_none (k : Str) (xs : List (Str × Str))
    (h : ∀ b ∈ xs, b.1 ≠ k) : lastVal k xs = none := by
  induction xs with
  | nil => rfl
  | cons x xs ih =>
    have hx : x.1 ≠ k := h x (List.mem_cons_self _ _)
    have h' : ∀ b ∈ xs, b.1 ≠ k := fun b hb => h b (List.mem_cons_of_mem _ hb)
    show (match lastVal k xs with
      | some v => some v
      | none => if x.1 = k then some x.2 else none) = none
    rw [ih h']
    simp [hx]

theorem lookup_parseDocs (text : Str) (k : Str) :
    List.lookup k (parseDocumentBlocks text).2
      = match lastVal k (trimmedBlocks text) with
        | some v => some v
        | none => none := by
  show List.lookup k (buildDocs (scanBlocks text).2) = _
  unfold buildDocs
  rw [← List.foldl_map (fun b => (trim b.1, trim b.2))
    (fun m b => setDoc m b.1 b.2) (scanBlocks text).2 []]
  rw [lookup_foldl_setDoc]
  cases h : lastVal k (trimmedBlocks text) with
  | some v => rw [show (scanBlocks text).2.map (fun b => (trim b.1, trim b.2)) = trimmedBlocks text from rfl, h]
  | none => rw [show (scanBlocks text).2.map (fun b => (trim b.1, trim b.2)) = trimmedBlocks text from rfl, h]; rfl

theorem mem_setDoc {x : Str × Str} {m : List (Str × Str)} {k v : Str}
    (h : x ∈ setDoc m k v) : x = (k, v) ∨ x ∈ m := by
  induction m with
  | nil => simpa [setDoc] using h
  | cons e tl ih =>
    obtain ⟨a, b⟩ := e
    by_cases hak : a = k
    · subst hak
      simp only [setDoc, if_pos rfl] at h
      rcases List.mem_cons.mp h with h1 | h1
      · exact Or.inl h1
      · exact Or.inr (List.mem_cons_of_mem _ h1)
    · simp only [setDoc, if_neg hak] at h
      rcases List.mem_cons.mp h with h1 | h1
      · exact Or.inr (h1 ▸ List.mem_cons_self _ _)
      · rcases ih h1 with h2 | h2
        · exact Or.inl h2
        · exact Or.inr (List.mem_cons_of_mem _ h2)

theorem mem_foldl_setDoc : ∀ (bs m : List (Str × Str)) (x : Str × Str),
    x ∈ bs.foldl (fun m b => setDoc m (trim b.1) (trim b.2)) m →
    x ∈ m ∨ ∃ b ∈ bs, x = (trim b.1, trim b.2) := by
  intro bs
  induction bs with
  | nil => intro m x h; exact Or.inl h
  | cons b bs ih =>
    intro m x h
    rw [List.foldl_cons] at h
    rcases ih _ x h with h1 | h1
    · rcases mem_setDoc h1 with h2 | h2
      · exact Or.inr ⟨b, List.mem_cons_self _ _, h2⟩
      · exact Or.inl h2
    · obtain ⟨b', hb', hx⟩ := h1
      exact Or.inr ⟨b', List.mem_cons_of_mem _ hb', hx⟩

theorem mem_buildDocs {x : Str × Str} {bs : List (Str × Str)}
    (h : x ∈ buildDocs bs) : ∃ b ∈ bs, x = (trim b.1, trim b.2) := by
  rcases mem_foldl_setDoc bs [] x h with h1 | h1
  · exact absurd h1 (List.not_mem_nil x)
  · exact h1

end Apex

namespace Apex

theorem tryBlock_content {s l c r : Str} (h : tryBlock s = some (l, c, r)) :
    containsSub fence c = false := by
  simp only [tryBlock] at h
  split at h
  case isFalse => exact absurd h (by simp)
  case isTrue hpre =>
    split at h
    case h_1 => exact absurd h (by simp)
    case h_2 x body hbody =>
      split at h
      case isTrue => exact absurd h (by simp)
      case isFalse hlab =>
        split at h
        case h_2 => exact absurd h (by simp)
        case h_1 q hq =>
          injection h with h'
          have hcq : c = body.take q := (congrArg (fun t => t.2.1) h').symm
          subst hcq
          by_contra hne
          have htrue : containsSub fence (body.take q) = true := by
            revert hne
            cases containsSub fence (body.take q) <;> simp
          obtain ⟨j, hj⟩ := containsSub_iff.mp htrue
          have hnonnil : (body.take q).drop j ≠ [] := by
            intro hnil
            rw [hnil, fence_cons] at hj
            simp [List.isPrefixOf] at hj
          have hjlt : j < (body.take q).length := by
            rcases Nat.lt_or_ge j (body.take q).length with h1 | h1
            · exact h1
            · exact absurd (List.drop_eq_nil_iff.mpr h1) hnonnil
          have hjq : j < q := by
            rw [List.length_take] at hjlt
            omega
          rw [List.drop_take q j body] at hj
          have hpj : fence <+: body.drop j :=
            (List.isPrefixOf_iff_prefix.mp hj).trans (List.take_prefix _ _)
          have hpt : fence.isPrefixOf (body.drop j) = true :=
            List.isPrefixOf_iff_prefix.mpr hpj
          have hpf := findSub_min hq j hjq
          rw [hpt] at hpf
          exact Bool.noConfusion hpf

theorem scanB_content : ∀ (fuel : Nat) (s : Str) (p : Str × Str),
    p ∈ (scanB fuel s).2 → containsSub fence p.2 = false := by
  intro fuel
  induction fuel with
  | zero => intro s p h; simp [scanB] at h
  | succ fuel ih =>
    intro s p h
    match s with
    | [] => simp [scanB] at h
    | c :: tl =>
      rw [scanB] at h
      cases htb : tryBlock (c :: tl) with
      | some v =>
        obtain ⟨l, cont, rest⟩ := v
        rw [htb] at h
        simp only at h
        rcases List.mem_cons.mp h with h1 | h1
        · have : p.2 = cont := congrArg Prod.snd h1
          rw [this]
          exact tryBlock_content htb
        · exact ih rest p h1
      | none =>
        rw [htb] at h
        simp only at h
        exact ih tl p h

theorem scanBlocks_content {s : Str} {p : Str × Str} (h : p ∈ (scanBlocks s).2) :
    containsSub fence p.2 = false :=
  scanB_content s.length s p h

end Apex

namespace Apex

theorem proseOf_no_tilde : ∀ (segs : List (Str × Str × Str)) (tail : Str),
    (∀ seg ∈ segs, '~' ∉ seg.1) → '~' ∉ tail → '~' ∉ proseOf segs tail := by
  intro segs
  induction segs with
  | nil => intro tail _ ht; simpa [proseOf] using ht
  | cons seg rest ih =>
    intro tail hs ht
    obtain ⟨p, l, c⟩ := seg
    have hp : '~' ∉ p := hs (p, l, c) (List.mem_cons_self _ _)
    have hr : ∀ s ∈ rest, '~' ∉ s.1 := fun s h => hs s (List.mem_cons_of_mem _ h)
    simp only [proseOf, List.mem_append]
    rintro (h1 | h1)
    · exact hp h1
    · exact ih tail hr ht h1

theorem scan_of_all_none : ∀ (s : Str), (∀ n, tryBlock (s.drop n) = none) →
    scanBlocks s = (s, []) := by
  intro s
  induction s with
  | nil => intro _; rfl
  | cons c tl ih =>
    intro h
    have h0 : tryBlock (c :: tl) = none := by simpa using h 0
    have h' : ∀ n, tryBlock (tl.drop n) = none := by
      intro n
      have := h (n + 1)
      simpa using this
    rw [scanBlocks_cons_none h0, ih h']

theorem noClosedBlock_all {s : Str} (h : noClosedBlock s = true) :
    ∀ n, tryBlock (s.drop n) = none := by
  intro n
  by_cases hn : n ≤ s.length
  · have := List.all_eq_true.mp h
    have hm : n ∈ List.range (s.length + 1) := List.mem_range.mpr (by omega)
    have := this n hm
    exact Option.isNone_iff_eq_none.mp this
  · rw [List.drop_eq_nil_iff.mpr (by omega)]
    exact tryBlock_nil

/-- C1 counterexample: for the concrete input `"before ~~~doc:PRD\nunfinished"`,
whose opening `~~~doc:` marker is never closed by a fence, the `cleanText`
returned by `parseDocumentBlocks` still contains the literal substring
`~~~doc:`, so the claim as stated is false. -/
theorem claim_C1_cex :
    containsSub marker
      (parseDocumentBlocks "before ~~~doc:PRD\nunfinished".data).1 = true := by
  decide

/-- C1 (amended): for every input that consists of tilde-free prose segments
interleaved with complete well-formed doc blocks (nonempty single-line
labels, tilde-free contents, closing fence present) and a tilde-free tail,
the `cleanText` returned by `parseDocumentBlocks` contains no occurrence of
the literal substring `~~~doc:`.  (An opening marker whose closing fence
never arrives is not matched and survives into `cleanText`.) -/
theorem claim_C1 (segs : List (Str × Str × Str)) (tail : Str)
    (hok : ∀ seg ∈ segs, segOk seg) (ht : '~' ∉ tail) :
    containsSub marker (parseDocumentBlocks (assemble segs tail)).1 = false := by
  have hscan := scan_assemble segs tail hok ht
  have hclean : (parseDocumentBlocks (assemble segs tail)).1
      = trim (proseOf segs tail) := by
    show trim (scanBlocks (assemble segs tail)).1 = _
    rw [hscan]
  rw [hclean]
  by_contra hne
  have htrue : containsSub marker (trim (proseOf segs tail)) = true := by
    revert hne
    cases containsSub marker (trim (proseOf segs tail)) <;> simp
  rw [marker_cons] at htrue
  have hmem : '~' ∈ trim (proseOf segs tail) := containsSub_mem_of_head htrue
  have hmem2 : '~' ∈ proseOf segs tail := mem_of_mem_trim hmem
  have hs : ∀ seg ∈ segs, '~' ∉ seg.1 := fun seg h => (hok seg h).1
  exact proseOf_no_tilde segs tail hs ht hmem2

/-- C1 witness: the amended theorem applied to a concrete one-block input. -/
theorem claim_C1_witness :
    (∀ seg ∈ [(("Intro ".data : Str), ("PRD".data : Str), ("Body".data : Str))], segOk seg)
    ∧ '~' ∉ " done".data
    ∧ containsSub marker
        (parseDocumentBlocks
          (assemble [("Intro ".data, "PRD".data, "Body".data)] " done".data)).1 = false :=
  ⟨by decide, by decide,
    claim_C1 [("Intro ".data, "PRD".data, "Body".data)] " done".data
      (by decide) (by decide)⟩

/-- C2 counterexample: on the scenario C partial stream
`"Summary text ~~~doc:Tech Spec\n# Spec\n"` (fence never closed) the
documents mapping is indeed empty, but `cleanText` is the trimmed input
(the trailing newline is stripped), not the input string itself, so the
claim as stated is false. -/
theorem claim_C2_cex :
    (parseDocumentBlocks "Summary text ~~~doc:Tech Spec\n# Spec\n".data).2 = []
    ∧ (parseDocumentBlocks "Summary text ~~~doc:Tech Spec\n# Spec\n".data).1
        ≠ "Summary text ~~~doc:Tech Spec\n# Spec\n".data := by
  decide

/-- C2 (amended): for every input string containing no complete (closed)
`~~~doc` block, `parseDocumentBlocks` returns an empty documents mapping and
a `cleanText` equal to the **trimmed** input; in particular on cancellation
no document is merged and the finalized assistant message (`handleStop`)
equals the trimmed raw partial text (when that trim is nonempty). -/
theorem claim_C2 (s : Str) (h : noClosedBlock s = true) :
    (parseDocumentBlocks s).2 = [] ∧ (parseDocumentBlocks s).1 = trim s
    ∧ (trim s ≠ [] → handleStopContent s = trim s) := by
  have hscan := scan_of_all_none s (noClosedBlock_all h)
  have h1 : (parseDocumentBlocks s).2 = [] := by
    show buildDocs (scanBlocks s).2 = []
    rw [hscan]
    rfl
  have h2 : (parseDocumentBlocks s).1 = trim s := by
    show trim (scanBlocks s).1 = trim s
    rw [hscan]
  refine ⟨h1, h2, fun hne => ?_⟩
  unfold handleStopContent
  rw [h2]
  have : (trim s).isEmpty = false := by
    cases htr : trim s with
    | nil => exact absurd htr hne
    | cons a l => rfl
  simp [this]

/-- C2 witness: the amended theorem applied to the scenario C input. -/
theorem claim_C2_witness :
    noClosedBlock "Summary text ~~~doc:Tech Spec\n# Spec\n".data = true
    ∧ (parseDocumentBlocks "Summary text ~~~doc:Tech Spec\n# Spec\n".data).2 = []
    ∧ (parseDocumentBlocks "Summary text ~~~doc:Tech Spec\n# Spec\n".data).1
        = trim "Summary text ~~~doc:Tech Spec\n# Spec\n".data
    ∧ handleStopContent "Summary text ~~~doc:Tech Spec\n# Spec\n".data
        = trim "Summary text ~~~doc:Tech Spec\n# Spec\n".data :=
  ⟨by decide,
    (claim_C2 _ (by decide)).1,
    (claim_C2 _ (by decide)).2.1,
    (claim_C2 _ (by decide)).2.2 (by decide)⟩

/-- C7: for any input containing two closed blocks with the same trimmed
label (the second being the last block carrying that label) and different
contents, the returned documents mapping binds that label to the content of
the later-appearing block. -/
theorem claim_C7 (text L c1 c2 : Str) (u v w : List (Str × Str))
    (hdecomp : trimmedBlocks text = u ++ ((L, c1) :: (v ++ ((L, c2) :: w))))
    (hlast : ∀ b ∈ w, b.1 ≠ L) (_hne : c1 ≠ c2) :
    List.lookup L (parseDocumentBlocks text).2 = some c2 := by
  have h1 : lastVal L w = none := lastVal_eq_none L w hlast
  have h2 : lastVal L ((L, c2) :: w) = some c2 := by
    show (match lastVal L w with
      | some x => some x
      | none => if (L, c2).1 = L then some (L, c2).2 else none) = some c2
    rw [h1]
    simp
  have h3 : lastVal L (v ++ (L, c2) :: w) = some c2 := by
    rw [lastVal_append, h2]
  have h4 : lastVal L ((L, c1) :: (v ++ (L, c2) :: w)) = some c2 := by
    show (match lastVal L (v ++ (L, c2) :: w) with
      | some x => some x
      | none => if (L, c1).1 = L then some (L, c1).2 else none) = some c2
    rw [h3]
  rw [lookup_parseDocs, hdecomp, lastVal_append, h4]

/-- C7 witness: two concrete `PRD` blocks; the mapping holds the second. -/
theorem claim_C7_witness :
    trimmedBlocks "~~~doc:PRD\nAAA~~~ mid ~~~doc:PRD\nBBB~~~".data
      = [] ++ (("PRD".data, "AAA".data) :: ([] ++ (("PRD".data, "BBB".data) :: [])))
    ∧ (∀ b ∈ ([] : List (Str × Str)), b.1 ≠ "PRD".data)
    ∧ "AAA".data ≠ "BBB".data
    ∧ List.lookup "PRD".data
        (parseDocumentBlocks "~~~doc:PRD\nAAA~~~ mid ~~~doc:PRD\nBBB~~~".data).2
        = some "BBB".data :=
  ⟨by decide, by decide, by decide,
    claim_C7 "~~~doc:PRD\nAAA~~~ mid ~~~doc:PRD\nBBB~~~".data
      "PRD".data "AAA".data "BBB".data [] [] []
      (by decide) (by decide) (by decide)⟩

/-- C9: every entry of the documents mapping returned by
`parseDocumentBlocks` has a content containing no occurrence of `~~~` —
the non-greedy match terminates at the first fence after the marker line,
and trimming cannot create an occurrence. -/
theorem claim_C9 (text k c : Str) (h : (k, c) ∈ (parseDocumentBlocks text).2) :
    containsSub fence c = false := by
  obtain ⟨b, hb, hx⟩ := mem_buildDocs h
  have hc : c = trim b.2 := congrArg Prod.snd hx
  have hfb : containsSub fence b.2 = false := scanBlocks_content hb
  subst hc
  by_contra hne
  have htrue : containsSub fence (trim b.2) = true := by
    revert hne
    cases containsSub fence (trim b.2) <;> simp
  have := containsSub_trim htrue
  rw [hfb] at this
  exact Bool.noConfusion this

/-- C9 witness: the theorem applied to a concrete extracted document. -/
theorem claim_C9_witness :
    ("PRD".data, "hello".data)
      ∈ (parseDocumentBlocks "x ~~~doc:PRD\nhello~~~ y".data).2
    ∧ containsSub fence "hello".data = false :=
  ⟨by decide, claim_C9 "x ~~~doc:PRD\nhello~~~ y".data "PRD".data "hello".data (by decide)⟩

end Apex

namespace Apex

/-- C8: whenever the `~~~issues` block is absent, or its interior fails to
parse as a JSON array of issues (the external JSON parser rejects it), the
issues extractor returns the empty list; it is a total function, so no
exception reaches the caller. -/
theorem claim_C8 (jp : Str → Option (List VerifierIssue)) (text : Str) :
    (findIssuesBlock text = none → parseIssuesFromResponse jp text = [])
    ∧ (∀ interior, findIssuesBlock text = some interior → jp interior = none →
        parseIssuesFromResponse jp text = []) := by
  constructor
  · intro h
    unfold parseIssuesFromResponse
    rw [h]
  · intro interior h hjp
    unfold parseIssuesFromResponse
    rw [h]
    show (jp interior).getD [] = []
    rw [hjp]
    rfl

/-- C8 witness: the input `"~~~issues\nNOT_JSON~~~"` has an issues block with
interior `"NOT_JSON"`; with a JSON parser that rejects it, the extractor
returns the empty list. -/
theorem claim_C8_witness :
    findIssuesBlock "~~~issues\nNOT_JSON~~~".data = some "NOT_JSON".data
    ∧ jsonParseNone "NOT_JSON".data = none
    ∧ parseIssuesFromResponse jsonParseNone "~~~issues\nNOT_JSON~~~".data = [] :=
  ⟨by decide, rfl,
    (claim_C8 jsonParseNone "~~~issues\nNOT_JSON~~~".data).2
      "NOT_JSON".data (by decide) rfl⟩

end Apex

namespace Apex

theorem lookup_mem : ∀ {m : List (Str × Str)} {k v : Str},
    List.lookup k m = some v → (k, v) ∈ m := by
  intro m
  induction m with
  | nil => intro k v h; simp [List.lookup] at h
  | cons e tl ih =>
    intro k v h
    obtain ⟨a, b⟩ := e
    rw [List.lookup] at h
    by_cases hk : k = a
    · subst hk
      simp at h
      subst h
      exact List.mem_cons_self _ _
    · rw [beq_eq_false_iff_ne.mpr hk] at h
      simp at h
      exact List.mem_cons_of_mem _ (ih h)

theorem nodup_entry_unique : ∀ {m : List (Str × Str)},
    (m.map Prod.fst).Nodup → ∀ {k v v' : Str}, (k, v) ∈ m → (k, v') ∈ m → v = v' := by
  intro m
  induction m with
  | nil => intro _ k v v' h; simp at h
  | cons e tl ih =>
    intro hnd k v v' h1 h2
    rw [List.map_cons, List.nodup_cons] at hnd
    rcases List.mem_cons.mp h1 with h1' | h1' <;> rcases List.mem_cons.mp h2 with h2' | h2'
    · rw [← h1'] at h2'
      exact (Prod.mk.injEq _ _ _ _ |>.mp h2'.symm).2
    · exfalso
      apply hnd.1
      have : e.1 = k := by rw [← h1']
      rw [this]
      exact List.mem_map.mpr ⟨(k, v'), h2', rfl⟩
    · exfalso
      apply hnd.1
      have : e.1 = k := by rw [← h2']
      rw [this]
      exact List.mem_map.mpr ⟨(k, v), h1', rfl⟩
    · exact ih hnd.2 h1' h2'

theorem nodup_map_inj : ∀ {l : List VerifierIssue},
    (l.map (fun i => i.id)).Nodup → ∀ {x y : VerifierIssue},
    x ∈ l → y ∈ l → x.id = y.id → x = y := by
  intro l
  induction l with
  | nil => intro _ x y h; simp at h
  | cons a t ih =>
    intro hnd x y hx hy hxy
    rw [List.map_cons, List.nodup_cons] at hnd
    rcases List.mem_cons.mp hx with hx' | hx' <;> rcases List.mem_cons.mp hy with hy' | hy'
    · rw [hx', hy']
    · exfalso
      apply hnd.1
      rw [← hx', hxy]
      exact List.mem_map.mpr ⟨y, hy', rfl⟩
    · exfalso
      apply hnd.1
      rw [← hy', ← hxy]
      exact List.mem_map.mpr ⟨x, hx', rfl⟩
    · exact ih hnd.2 hx' hy' hxy

theorem remainingIssues_not_isEmpty {vs : VerifierState}
    (h : remainingIssues vs ≠ []) : (remainingIssues vs).isEmpty = false := by
  cases hr : remainingIssues vs with
  | nil => exact absurd hr h
  | cons a t => rfl

/-- C3: a single apply-all invocation with at least one outstanding non-info
issue performs exactly one snapshot action, of the full current document
store with source harmonized — regardless of how many issues are being
fixed and of whether the round-trip succeeds — and that snapshot appends
exactly one new `DocVersion` per existing docType, each with source
harmonized. -/
theorem claim_C3 (vs : VerifierState) (resp : Except Unit Str) (sess : Session)
    (now : Nat) (hrem : remainingIssues vs ≠ []) :
    (applyAllFixes vs sess.documents resp).snapshots
        = [(sess.documents, DocSource.harmonized)]
    ∧ (handleSnapshotVersions sess sess.documents DocSource.harmonized
        now).documentHistory.length
        = sess.documentHistory.length + sess.documents.length
    ∧ ∀ ver ∈ (handleSnapshotVersions sess sess.documents DocSource.harmonized
        now).documentHistory.drop sess.documentHistory.length,
        ver.source = DocSource.harmonized := by
  refine ⟨?_, ?_, ?_⟩
  · cases resp <;>
      simp [applyAllFixes, remainingIssues_not_isEmpty hrem]
  · simp [handleSnapshotVersions]
  · intro ver hver
    simp only [handleSnapshotVersions, List.drop_left] at hver
    obtain ⟨e, _, he⟩ := List.mem_map.mp hver
    rw [← he]

/-- C3 witness: 3 outstanding non-info issues spanning 2 target documents,
2 documents in the store: exactly one snapshot, exactly 2 new versions. -/
theorem claim_C3_witness :
    remainingIssues
      (VerifierState.mk VPhase.ready
        [VerifierIssue.mk "R-001".data Severity.critical "contradiction".data
          "t1".data "d1".data [] [] "f1".data "PRD".data,
         VerifierIssue.mk "R-002".data Severity.warning "drift".data
          "t2".data "d2".data [] [] "f2".data "Architecture".data,
         VerifierIssue.mk "R-003".data Severity.warning "gap".data
          "t3".data "d3".data [] [] "f3".data "PRD".data]
        "s".data [] [] "r".data) ≠ []
    ∧ (applyAllFixes
        (VerifierState.mk VPhase.ready
          [VerifierIssue.mk "R-001".data Severity.critical "contradiction".data
            "t1".data "d1".data [] [] "f1".data "PRD".data,
           VerifierIssue.mk "R-002".data Severity.warning "drift".data
            "t2".data "d2".data [] [] "f2".data "Architecture".data,
           VerifierIssue.mk "R-003".data Severity.warning "gap".data
            "t3".data "d3".data [] [] "f3".data "PRD".data]
          "s".data [] [] "r".data)
        (Session.mk [] [("PRD".data, "p".data), ("Architecture".data, "a".data)] [] 0).documents
        (Except.ok "ok".data)).snapshots
        = [((Session.mk [] [("PRD".data, "p".data), ("Architecture".data, "a".data)] [] 0).documents,
            DocSource.harmonized)]
    ∧ (handleSnapshotVersions
        (Session.mk [] [("PRD".data, "p".data), ("Architecture".data, "a".data)] [] 0)
        (Session.mk [] [("PRD".data, "p".data), ("Architecture".data, "a".data)] [] 0).documents
        DocSource.harmonized 5).documentHistory.length = 0 + 2
    ∧ ∀ ver ∈ (handleSnapshotVersions
        (Session.mk [] [("PRD".data, "p".data), ("Architecture".data, "a".data)] [] 0)
        (Session.mk [] [("PRD".data, "p".data), ("Architecture".data, "a".data)] [] 0).documents
        DocSource.harmonized 5).documentHistory.drop 0,
        ver.source = DocSource.harmonized := by
  refine ⟨by decide, ?_⟩
  exact claim_C3
    (VerifierState.mk VPhase.ready
      [VerifierIssue.mk "R-001".data Severity.critical "contradiction".data
        "t1".data "d1".data [] [] "f1".data "PRD".data,
       VerifierIssue.mk "R-002".data Severity.warning "drift".data
        "t2".data "d2".data [] [] "f2".data "Architecture".data,
       VerifierIssue.mk "R-003".data Severity.warning "gap".data
        "t3".data "d3".data [] [] "f3".data "PRD".data]
      "s".data [] [] "r".data)
    (Except.ok "ok".data)
    (Session.mk [] [("PRD".data, "p".data), ("Architecture".data, "a".data)] [] 0)
    5 (by decide)

end Apex

namespace Apex

/-- C4: snapshotting the current documents with source edited (where the
document at key `k` has content `A`) and then merging content `B` for the
same key leaves the live document equal to `B`, while the most recent
history entry for that key (the unique one stamped with the snapshot time)
has content `A` and source edited. -/
theorem claim_C4 (sess : Session) (k A B : Str) (t1 t2 : Nat)
    (hA : List.lookup k sess.documents = some A)
    (hnd : (sess.documents.map Prod.fst).Nodup)
    (hts : ∀ ver ∈ sess.documentHistory, ver.timestamp < t1) :
    List.lookup k (handleDocumentsUpdate
        (handleSnapshotVersions sess sess.documents DocSource.edited t1)
        [(k, B)] t2).documents = some B
    ∧ (∃ ver ∈ (handleDocumentsUpdate
          (handleSnapshotVersions sess sess.documents DocSource.edited t1)
          [(k, B)] t2).documentHistory,
        ver.docType = k ∧ ver.content = A ∧ ver.timestamp = t1
          ∧ ver.source = DocSource.edited)
    ∧ (∀ ver ∈ (handleDocumentsUpdate
          (handleSnapshotVersions sess sess.documents DocSource.edited t1)
          [(k, B)] t2).documentHistory, ver.docType = k → ver.timestamp ≤ t1)
    ∧ (∀ ver ∈ (handleDocumentsUpdate
          (handleSnapshotVersions sess sess.documents DocSource.edited t1)
          [(k, B)] t2).documentHistory, ver.docType = k → ver.timestamp = t1 →
        ver.content = A ∧ ver.source = DocSource.edited) := by
  have hdocs : (handleDocumentsUpdate
      (handleSnapshotVersions sess sess.documents DocSource.edited t1)
      [(k, B)] t2).documents = setDoc sess.documents k B := rfl
  have hhist : (handleDocumentsUpdate
      (handleSnapshotVersions sess sess.documents DocSource.edited t1)
      [(k, B)] t2).documentHistory
      = sess.documentHistory
        ++ sess.documents.map (fun e => DocVersion.mk e.1 e.2 t1 DocSource.edited) := rfl
  refine ⟨?_, ?_, ?_, ?_⟩
  · rw [hdocs, lookup_setDoc]
    simp
  · rw [hhist]
    refine ⟨DocVersion.mk k A t1 DocSource.edited, ?_, rfl, rfl, rfl, rfl⟩
    apply List.mem_append_right
    exact List.mem_map.mpr ⟨(k, A), lookup_mem hA, rfl⟩
  · rw [hhist]
    intro ver hver _
    rcases List.mem_append.mp hver with h1 | h1
    · exact Nat.le_of_lt (hts ver h1)
    · obtain ⟨e, _, he⟩ := List.mem_map.mp h1
      rw [← he]
  · rw [hhist]
    intro ver hver hk ht
    rcases List.mem_append.mp hver with h1 | h1
    · exact absurd ht (Nat.ne_of_lt (hts ver h1))
    · obtain ⟨e, he1, he⟩ := List.mem_map.mp h1
      have hek : e.1 = k := by rw [← hk, ← he]
      have heA : e.2 = A := by
        apply nodup_entry_unique hnd _ (lookup_mem hA)
        rw [← hek]
        exact he1
      constructor
      · rw [← he, heA]
      · rw [← he]

/-- C4 witness: the theorem applied to a one-document session. -/
theorem claim_C4_witness :
    List.lookup "PRD".data
        (Session.mk [] [("PRD".data, "A".data)] [] 0).documents = some "A".data
    ∧ ((Session.mk [] [("PRD".data, "A".data)] [] 0).documents.map Prod.fst).Nodup
    ∧ (∀ ver ∈ (Session.mk [] [("PRD".data, "A".data)] [] 0).documentHistory,
        ver.timestamp < 10)
    ∧ List.lookup "PRD".data (handleDocumentsUpdate
        (handleSnapshotVersions (Session.mk [] [("PRD".data, "A".data)] [] 0)
          (Session.mk [] [("PRD".data, "A".data)] [] 0).documents DocSource.edited 10)
        [("PRD".data, "B".data)] 11).documents = some "B".data
    ∧ ∀ ver ∈ (handleDocumentsUpdate
        (handleSnapshotVersions (Session.mk [] [("PRD".data, "A".data)] [] 0)
          (Session.mk [] [("PRD".data, "A".data)] [] 0).documents DocSource.edited 10)
        [("PRD".data, "B".data)] 11).documentHistory,
        ver.docType = "PRD".data → ver.timestamp = 10 →
        ver.content = "A".data ∧ ver.source = DocSource.edited := by
  refine ⟨by decide, by decide, by decide, ?_, ?_⟩
  · exact (claim_C4 (Session.mk [] [("PRD".data, "A".data)] [] 0)
      "PRD".data "A".data "B".data 10 11 (by decide) (by decide) (by decide)).1
  · exact (claim_C4 (Session.mk [] [("PRD".data, "A".data)] [] 0)
      "PRD".data "A".data "B".data 10 11 (by decide) (by decide) (by decide)).2.2.2

/-- C6: when the apply-all harmonize round-trip fails, the last state update
sets the phase back to ready while leaving the issue list, summary,
dismissed set and applied set exactly as they were, and no document merge
is performed. -/
theorem claim_C6 (vs : VerifierState) (docs : List (Str × Str))
    (hrem : remainingIssues vs ≠ []) :
    ∃ final, (applyAllFixes vs docs (Except.error ())).updates.getLast? = some final
    ∧ final.phase = VPhase.ready ∧ final.issues = vs.issues
    ∧ final.summary = vs.summary ∧ final.dismissed = vs.dismissed
    ∧ final.applied = vs.applied
    ∧ (applyAllFixes vs docs (Except.error ())).merges = [] := by
  refine ⟨{ vs with phase := VPhase.ready }, ?_, rfl, rfl, rfl, rfl, rfl, ?_⟩
  · simp [applyAllFixes, remainingIssues_not_isEmpty hrem]
  · simp [applyAllFixes, remainingIssues_not_isEmpty hrem]

/-- C6 witness: the theorem applied to a concrete failing invocation. -/
theorem claim_C6_witness :
    remainingIssues
      (VerifierState.mk VPhase.ready
        [VerifierIssue.mk "R-001".data Severity.warning "drift".data
          "t".data "d".data [] [] "f".data "PRD".data]
        "sum".data ["X-9".data] ["X-8".data] "rep".data) ≠ []
    ∧ ∃ final, (applyAllFixes
        (VerifierState.mk VPhase.ready
          [VerifierIssue.mk "R-001".data Severity.warning "drift".data
            "t".data "d".data [] [] "f".data "PRD".data]
          "sum".data ["X-9".data] ["X-8".data] "rep".data)
        [("PRD".data, "p".data)] (Except.error ())).updates.getLast? = some final
      ∧ final.phase = VPhase.ready
      ∧ final.issues = [VerifierIssue.mk "R-001".data Severity.warning "drift".data
          "t".data "d".data [] [] "f".data "PRD".data]
      ∧ final.summary = "sum".data
      ∧ final.dismissed = ["X-9".data]
      ∧ final.applied = ["X-8".data]
      ∧ (applyAllFixes
          (VerifierState.mk VPhase.ready
            [VerifierIssue.mk "R-001".data Severity.warning "drift".data
              "t".data "d".data [] [] "f".data "PRD".data]
            "sum".data ["X-9".data] ["X-8".data] "rep".data)
          [("PRD".data, "p".data)] (Except.error ())).merges = [] :=
  ⟨by decide,
    claim_C6
      (VerifierState.mk VPhase.ready
        [VerifierIssue.mk "R-001".data Severity.warning "drift".data
          "t".data "d".data [] [] "f".data "PRD".data]
        "sum".data ["X-9".data] ["X-8".data] "rep".data)
      [("PRD".data, "p".data)] (by decide)⟩

end Apex

namespace Apex

/-- C10: apply-all operates only on issues that are neither dismissed, nor
already applied, nor info-severity; an info issue is excluded from the
outstanding list from which the single harmonize request is built and
(given distinct issue ids) its id is never among the ids added to the
applied set; and when no outstanding non-info issue exists, apply-all makes
no request, no snapshot, no state update and no merge. -/
theorem claim_C10 (vs : VerifierState) (docs : List (Str × Str))
    (resp : Except Unit Str)
    (hids : (vs.issues.map (fun i => i.id)).Nodup) :
    (∀ i ∈ vs.issues, i.severity = Severity.info →
      i ∉ remainingIssues vs
        ∧ i.id ∉ (remainingIssues vs).map (fun i => i.id))
    ∧ (∀ i ∈ remainingIssues vs,
        i.id ∉ vs.dismissed ∧ i.id ∉ vs.applied ∧ i.severity ≠ Severity.info)
    ∧ (remainingIssues vs ≠ [] →
        (applyAllFixes vs docs resp).request
          = some (applyAllReport (remainingIssues vs)))
    ∧ (∀ st ∈ (applyAllFixes vs docs resp).updates,
        st.applied = vs.applied
          ∨ st.applied = vs.applied ++ (remainingIssues vs).map (fun i => i.id))
    ∧ (remainingIssues vs = [] →
        (applyAllFixes vs docs resp).request = none
        ∧ (applyAllFixes vs docs resp).snapshots = []
        ∧ (applyAllFixes vs docs resp).updates = []
        ∧ (applyAllFixes vs docs resp).merges = []) := by
  have hmemrem : ∀ i ∈ remainingIssues vs,
      i ∈ vs.issues ∧ vs.dismissed.contains i.id = false
        ∧ vs.applied.contains i.id = false ∧ (i.severity == Severity.info) = false := by
    intro i hi
    have := List.mem_filter.mp hi
    obtain ⟨h1, h2⟩ := this
    simp only [Bool.and_eq_true, Bool.not_eq_true'] at h2
    exact ⟨h1, h2.1.1, h2.1.2, h2.2⟩
  have hinfo : ∀ i ∈ vs.issues, i.severity = Severity.info → i ∉ remainingIssues vs := by
    intro i _ hsev hmem
    have := (hmemrem i hmem).2.2.2
    rw [hsev] at this
    simp at this
  refine ⟨?_, ?_, ?_, ?_, ?_⟩
  · intro i hi hsev
    refine ⟨hinfo i hi hsev, ?_⟩
    intro hid
    obtain ⟨j, hj, hjid⟩ := List.mem_map.mp hid
    have hjiss : j ∈ vs.issues := (hmemrem j hj).1
    have : j = i := nodup_map_inj hids hjiss hi hjid
    exact hinfo i hi hsev (this ▸ hj)
  · intro i hi
    obtain ⟨_, h1, h2, h3⟩ := hmemrem i hi
    refine ⟨?_, ?_, ?_⟩
    · intro hmem
      have hc : vs.dismissed.contains i.id = true := by simp [hmem]
      rw [hc] at h1
      exact Bool.noConfusion h1
    · intro hmem
      have hc : vs.applied.contains i.id = true := by simp [hmem]
      rw [hc] at h2
      exact Bool.noConfusion h2
    · intro hsev
      rw [hsev] at h3
      simp at h3
  · intro hrem
    cases resp <;> simp [applyAllFixes, remainingIssues_not_isEmpty hrem]
  · intro st hst
    by_cases hrem : remainingIssues vs = []
    · simp [applyAllFixes, hrem] at hst
    · cases resp with
      | error e =>
        simp [applyAllFixes, remainingIssues_not_isEmpty hrem] at hst
        rcases hst with h | h <;> rw [h] <;> simp
      | ok full =>
        simp [applyAllFixes, remainingIssues_not_isEmpty hrem] at hst
        rcases hst with h | h <;> rw [h] <;> simp
  · intro hrem
    have : (remainingIssues vs).isEmpty = true := by rw [hrem]; rfl
    refine ⟨?_, ?_, ?_, ?_⟩ <;> simp [applyAllFixes, this]

/-- C10 witness: one info issue and one warning issue with distinct ids. -/
theorem claim_C10_witness :
    ((VerifierState.mk VPhase.ready
      [VerifierIssue.mk "R-001".data Severity.info "note".data
        "t1".data "d1".data [] [] "f1".data "PRD".data,
       VerifierIssue.mk "R-002".data Severity.warning "drift".data
        "t2".data "d2".data [] [] "f2".data "PRD".data]
      "s".data [] [] "r".data).issues.map (fun i => i.id)).Nodup
    ∧ ((∀ i ∈ (VerifierState.mk VPhase.ready
          [VerifierIssue.mk "R-001".data Severity.info "note".data
            "t1".data "d1".data [] [] "f1".data "PRD".data,
           VerifierIssue.mk "R-002".data Severity.warning "drift".data
            "t2".data "d2".data [] [] "f2".data "PRD".data]
          "s".data [] [] "r".data).issues, i.severity = Severity.info →
        i ∉ remainingIssues (VerifierState.mk VPhase.ready
          [VerifierIssue.mk "R-001".data Severity.info "note".data
            "t1".data "d1".data [] [] "f1".data "PRD".data,
           VerifierIssue.mk "R-002".data Severity.warning "drift".data
            "t2".data "d2".data [] [] "f2".data "PRD".data]
          "s".data [] [] "r".data)
          ∧ i.id ∉ (remainingIssues (VerifierState.mk VPhase.ready
            [VerifierIssue.mk "R-001".data Severity.info "note".data
              "t1".data "d1".data [] [] "f1".data "PRD".data,
             VerifierIssue.mk "R-002".data Severity.warning "drift".data
              "t2".data "d2".data [] [] "f2".data "PRD".data]
            "s".data [] [] "r".data)).map (fun i => i.id))) := by
  refine ⟨by decide, ?_⟩
  exact (claim_C10 (VerifierState.mk VPhase.ready
      [VerifierIssue.mk "R-001".data Severity.info "note".data
        "t1".data "d1".data [] [] "f1".data "PRD".data,
       VerifierIssue.mk "R-002".data Severity.warning "drift".data
        "t2".data "d2".data [] [] "f2".data "PRD".data]
      "s".data [] [] "r".data)
    [("PRD".data, "p".data)] (Except.ok "done".data) (by decide)).1

end Apex

namespace Apex

theorem insertAsc_perm (v : DocVersion) (l : List DocVersion) :
    List.Perm (insertAsc v l) (v :: l) := by
  induction l with
  | nil => rfl
  | cons w ws ih =>
    rw [insertAsc]
    split
    · rfl
    · exact (List.Perm.cons w ih).trans (List.Perm.swap v w ws)

theorem insertDesc_perm (v : DocVersion) (l : List DocVersion) :
    List.Perm (insertDesc v l) (v :: l) := by
  induction l with
  | nil => rfl
  | cons w ws ih =>
    rw [insertDesc]
    split
    · rfl
    · exact (List.Perm.cons w ih).trans (List.Perm.swap v w ws)

theorem foldl_insertAsc_perm : ∀ (l acc : List DocVersion),
    List.Perm (l.foldl (fun a v => insertAsc v a) acc) (acc ++ l) := by
  intro l
  induction l with
  | nil => intro acc; simp
  | cons v t ih =>
    intro acc
    rw [List.foldl_cons]
    have h1 := ih (insertAsc v acc)
    have h2 : List.Perm (insertAsc v acc ++ t) ((v :: acc) ++ t) :=
      (insertAsc_perm v acc).append_right t
    have h3 : List.Perm ((v :: acc) ++ t) (acc ++ v :: t) := by
      rw [List.cons_append]
      exact List.perm_middle.symm
    exact (h1.trans h2).trans h3

theorem foldl_insertDesc_perm : ∀ (l acc : List DocVersion),
    List.Perm (l.foldl (fun a v => insertDesc v a) acc) (acc ++ l) := by
  intro l
  induction l with
  | nil => intro acc; simp
  | cons v t ih =>
    intro acc
    rw [List.foldl_cons]
    have h1 := ih (insertDesc v acc)
    have h2 : List.Perm (insertDesc v acc ++ t) ((v :: acc) ++ t) :=
      (insertDesc_perm v acc).append_right t
    have h3 : List.Perm ((v :: acc) ++ t) (acc ++ v :: t) := by
      rw [List.cons_append]
      exact List.perm_middle.symm
    exact (h1.trans h2).trans h3

theorem sortAsc_perm (l : List DocVersion) : List.Perm (sortAsc l) l := by
  have := foldl_insertAsc_perm l []
  simpa [sortAsc] using this

theorem sortDesc_perm (l : List DocVersion) : List.Perm (sortDesc l) l := by
  have := foldl_insertDesc_perm l []
  simpa [sortDesc] using this

theorem insertAsc_pairwise {l : List DocVersion} (v : DocVersion)
    (h : List.Pairwise (fun a b => a.timestamp ≤ b.timestamp) l) :
    List.Pairwise (fun a b => a.timestamp ≤ b.timestamp) (insertAsc v l) := by
  induction l with
  | nil => simp [insertAsc]
  | cons w ws ih =>
    rw [List.pairwise_cons] at h
    rw [insertAsc]
    split
    case isTrue hlt =>
      rw [List.pairwise_cons]
      refine ⟨?_, List.pairwise_cons.mpr h⟩
      intro b hb
      rcases List.mem_cons.mp hb with h1 | h1
      · subst h1; omega
      · have := h.1 b h1
        omega
    case isFalse hge =>
      rw [List.pairwise_cons]
      refine ⟨?_, ih h.2⟩
      intro b hb
      have hb' : b = v ∨ b ∈ ws := (insertAsc_perm v ws).mem_iff.mp hb |> List.mem_cons.mp
      rcases hb' with h1 | h1
      · subst h1; omega
      · exact h.1 b h1

theorem insertDesc_pairwise {l : List DocVersion} (v : DocVersion)
    (h : List.Pairwise (fun a b => b.timestamp ≤ a.timestamp) l) :
    List.Pairwise (fun a b => b.timestamp ≤ a.timestamp) (insertDesc v l) := by
  induction l with
  | nil => simp [insertDesc]
  | cons w ws ih =>
    rw [List.pairwise_cons] at h
    rw [insertDesc]
    split
    case isTrue hlt =>
      rw [List.pairwise_cons]
      refine ⟨?_, List.pairwise_cons.mpr h⟩
      intro b hb
      rcases List.mem_cons.mp hb with h1 | h1
      · subst h1; omega
      · have := h.1 b h1
        omega
    case isFalse hge =>
      rw [List.pairwise_cons]
      refine ⟨?_, ih h.2⟩
      intro b hb
      have hb' : b = v ∨ b ∈ ws := (insertDesc_perm v ws).mem_iff.mp hb |> List.mem_cons.mp
      rcases hb' with h1 | h1
      · subst h1; omega
      · exact h.1 b h1

theorem sortAsc_pairwise (l : List DocVersion) :
    List.Pairwise (fun a b => a.timestamp ≤ b.timestamp) (sortAsc l) := by
  have aux : ∀ (t acc : List DocVersion),
      List.Pairwise (fun a b => a.timestamp ≤ b.timestamp) acc →
      List.Pairwise (fun a b => a.timestamp ≤ b.timestamp)
        (t.foldl (fun a v => insertAsc v a) acc) := by
    intro t
    induction t with
    | nil => intro acc h; simpa using h
    | cons v t ih =>
      intro acc h
      rw [List.foldl_cons]
      exact ih _ (insertAsc_pairwise v h)
  exact aux l [] List.Pairwise.nil

theorem sortDesc_pairwise (l : List DocVersion) :
    List.Pairwise (fun a b => b.timestamp ≤ a.timestamp) (sortDesc l) := by
  have aux : ∀ (t acc : List DocVersion),
      List.Pairwise (fun a b => b.timestamp ≤ a.timestamp) acc →
      List.Pairwise (fun a b => b.timestamp ≤ a.timestamp)
        (t.foldl (fun a v => insertDesc v a) acc) := by
    intro t
    induction t with
    | nil => intro acc h; simpa using h
    | cons v t ih =>
      intro acc h
      rw [List.foldl_cons]
      exact ih _ (insertDesc_pairwise v h)
  exact aux l [] List.Pairwise.nil

end Apex

namespace Apex

theorem pushGroup_keys (gs : List (Str × List DocVersion)) (v : DocVersion) :
    (pushGroup gs v).map Prod.fst
      = if v.docType ∈ gs.map Prod.fst then gs.map Prod.fst
        else gs.map Prod.fst ++ [v.docType] := by
  induction gs with
  | nil => simp [pushGroup]
  | cons g rest ih =>
    obtain ⟨gk, gl⟩ := g
    by_cases hk : gk = v.docType
    · subst hk
      simp [pushGroup]
    · rw [pushGroup, if_neg hk]
      by_cases hmem : v.docType ∈ rest.map Prod.fst
      · simp only [List.map_cons, ih, if_pos hmem]
        rw [if_pos]
        exact List.mem_cons_of_mem _ hmem
      · simp only [List.map_cons, ih, if_neg hmem]
        rw [if_neg]
        · simp
        · intro hc
          rcases List.mem_cons.mp hc with h1 | h1
          · exact hk h1.symm
          · exact hmem h1

theorem pushGroup_nodup {gs : List (Str × List DocVersion)} (v : DocVersion)
    (h : (gs.map Prod.fst).Nodup) : ((pushGroup gs v).map Prod.fst).Nodup := by
  rw [pushGroup_keys]
  split
  · exact h
  case isFalse hmem =>
    rw [List.nodup_append]
    exact ⟨h, List.nodup_singleton _, by simpa using hmem⟩

theorem pushGroup_mem_key {gs : List (Str × List DocVersion)} (v : DocVersion)
    (h : ∀ g ∈ gs, ∀ w ∈ g.2, w.docType = g.1) :
    ∀ g ∈ pushGroup gs v, ∀ w ∈ g.2, w.docType = g.1 := by
  induction gs with
  | nil =>
    intro g hg w hw
    simp [pushGroup] at hg
    subst hg
    simp at hw
    rw [hw]
  | cons g0 rest ih =>
    obtain ⟨gk, gl⟩ := g0
    intro g hg w hw
    by_cases hk : gk = v.docType
    · rw [pushGroup, if_pos hk] at hg
      rcases List.mem_cons.mp hg with h1 | h1
      · subst h1
        simp only at hw
        rcases List.mem_append.mp hw with h2 | h2
        · exact h (gk, gl) (List.mem_cons_self _ _) w h2
        · simp at h2
          rw [h2]
          exact hk.symm
      · exact h g (List.mem_cons_of_mem _ h1) w hw
    · rw [pushGroup, if_neg hk] at hg
      rcases List.mem_cons.mp hg with h1 | h1
      · subst h1
        exact h (gk, gl) (List.mem_cons_self _ _) w hw
      · exact ih (fun g' hg' => h g' (List.mem_cons_of_mem _ hg')) g h1 w hw

theorem groupContents_pushGroup (gs : List (Str × List DocVersion))
    (v : DocVersion) (k : Str) :
    groupContents (pushGroup gs v) k
      = groupContents gs k ++ (if v.docType = k then [v] else []) := by
  induction gs with
  | nil =>
    by_cases hk : v.docType = k
    · simp [pushGroup, groupContents, hk]
    · simp [pushGroup, groupContents, hk]
  | cons g rest ih =>
    obtain ⟨gk, gl⟩ := g
    by_cases hgk : gk = v.docType
    · rw [pushGroup, if_pos hgk]
      by_cases hk : gk = k
      · have hvk : v.docType = k := by rw [← hgk, hk]
        rw [show groupContents ((gk, gl ++ [v]) :: rest) k
            = gl ++ [v] from by rw [groupContents, if_pos hk]]
        rw [show groupContents ((gk, gl) :: rest) k
            = gl from by rw [groupContents, if_pos hk]]
        rw [if_pos hvk]
      · have hvk : ¬ (v.docType = k) := by rw [← hgk]; exact hk
        rw [show groupContents ((gk, gl ++ [v]) :: rest) k
            = groupContents rest k from by rw [groupContents, if_neg hk]]
        rw [show groupContents ((gk, gl) :: rest) k
            = groupContents rest k from by rw [groupContents, if_neg hk]]
        rw [if_neg hvk]
        simp
    · rw [pushGroup, if_neg hgk]
      by_cases hk : gk = k
      · rw [show groupContents ((gk, gl) :: pushGroup rest v) k
            = gl from by rw [groupContents, if_pos hk]]
        rw [show groupContents ((gk, gl) :: rest) k
            = gl from by rw [groupContents, if_pos hk]]
        have hvk : ¬ (v.docType = k) := by
          intro hc
          exact hgk (by rw [hk, ← hc])
        rw [if_neg hvk]
        simp
      · rw [show groupContents ((gk, gl) :: pushGroup rest v) k
            = groupContents (pushGroup rest v) k from by rw [groupContents, if_neg hk]]
        rw [show groupContents ((gk, gl) :: rest) k
            = groupContents rest k from by rw [groupContents, if_neg hk]]
        exact ih

theorem groupByDocType_nodup (h : List DocVersion) :
    ((groupByDocType h).map Prod.fst).Nodup := by
  have aux : ∀ (t : List DocVersion) (acc : List (Str × List DocVersion)),
      (acc.map Prod.fst).Nodup → ((t.foldl pushGroup acc).map Prod.fst).Nodup := by
    intro t
    induction t with
    | nil => intro acc hacc; simpa using hacc
    | cons v t ih =>
      intro acc hacc
      rw [List.foldl_cons]
      exact ih _ (pushGroup_nodup v hacc)
  exact aux h [] (by simp)

theorem groupByDocType_mem_key (h : List DocVersion) :
    ∀ g ∈ groupByDocType h, ∀ w ∈ g.2, w.docType = g.1 := by
  have aux : ∀ (t : List DocVersion) (acc : List (Str × List DocVersion)),
      (∀ g ∈ acc, ∀ w ∈ g.2, w.docType = g.1) →
      ∀ g ∈ t.foldl pushGroup acc, ∀ w ∈ g.2, w.docType = g.1 := by
    intro t
    induction t with
    | nil => intro acc hacc; simpa using hacc
    | cons v t ih =>
      intro acc hacc
      rw [List.foldl_cons]
      exact ih _ (pushGroup_mem_key v hacc)
  exact aux h [] (by simp)

theorem groupContents_groupBy (h : List DocVersion) (k : Str) :
    groupContents (groupByDocType h) k
      = h.filter (fun v => v.docType == k) := by
  have aux : ∀ (t : List DocVersion) (acc : List (Str × List DocVersion)),
      groupContents (t.foldl pushGroup acc) k
        = groupContents acc k ++ t.filter (fun v => v.docType == k) := by
    intro t
    induction t with
    | nil => intro acc; simp
    | cons v t ih =>
      intro acc
      rw [List.foldl_cons, ih, groupContents_pushGroup]
      by_cases hk : v.docType = k
      · rw [if_pos hk, List.filter_cons_of_pos (by simp [hk])]
        simp
      · rw [if_neg hk, List.filter_cons_of_neg (by simp [hk])]
        simp
  have := aux h []
  simpa [groupContents] using this

end Apex

namespace Apex

theorem foldl_append_flatten : ∀ (gs : List (Str × List DocVersion)) (acc : List DocVersion),
    gs.foldl (fun a g => a ++ (sortDesc g.2).take MAX_VERSIONS_PER_DOC) acc
      = acc ++ (gs.map (fun g => (sortDesc g.2).take MAX_VERSIONS_PER_DOC)).flatten := by
  intro gs
  induction gs with
  | nil => intro acc; simp
  | cons g rest ih =>
    intro acc
    rw [List.foldl_cons, ih]
    simp

theorem kept_filter : ∀ (gs : List (Str × List DocVersion)) (k : Str),
    ((gs.map Prod.fst).Nodup) →
    (∀ g ∈ gs, ∀ w ∈ g.2, w.docType = g.1) →
    ((gs.map (fun g => (sortDesc g.2).take MAX_VERSIONS_PER_DOC)).flatten).filter
        (fun v => v.docType == k)
      = (sortDesc (groupContents gs k)).take MAX_VERSIONS_PER_DOC := by
  intro gs
  induction gs with
  | nil => intro k _ _; simp [groupContents, sortDesc]
  | cons g rest ih =>
    intro k hnd hkey
    rw [List.map_cons, List.nodup_cons] at hnd
    have hkey' : ∀ g' ∈ rest, ∀ w ∈ g'.2, w.docType = g'.1 :=
      fun g' hg' => hkey g' (List.mem_cons_of_mem _ hg')
    have hmemg : ∀ v ∈ (sortDesc g.2).take MAX_VERSIONS_PER_DOC, v.docType = g.1 := by
      intro v hv
      have h1 : v ∈ sortDesc g.2 := List.take_subset _ _ hv
      have h2 : v ∈ g.2 := (sortDesc_perm g.2).mem_iff.mp h1
      exact hkey g (List.mem_cons_self _ _) v h2
    have hmemrest : ∀ v ∈ ((rest.map
        (fun g => (sortDesc g.2).take MAX_VERSIONS_PER_DOC)).flatten),
        v.docType ∈ rest.map Prod.fst := by
      intro v hv
      obtain ⟨l, hl, hvl⟩ := List.mem_flatten.mp hv
      obtain ⟨g', hg', hge⟩ := List.mem_map.mp hl
      rw [← hge] at hvl
      have h1 : v ∈ g'.2 := (sortDesc_perm g'.2).mem_iff.mp (List.take_subset _ _ hvl)
      have h2 : v.docType = g'.1 := hkey' g' hg' v h1
      rw [h2]
      exact List.mem_map.mpr ⟨g', hg', rfl⟩
    rw [List.map_cons, List.flatten_cons, List.filter_append]
    by_cases hk : g.1 = k
    · have hA : ((sortDesc g.2).take MAX_VERSIONS_PER_DOC).filter
          (fun v => v.docType == k) = (sortDesc g.2).take MAX_VERSIONS_PER_DOC :=
        List.filter_eq_self.mpr (fun v hv => by
          rw [beq_iff_eq, hmemg v hv, hk])
      have hB : ((rest.map
          (fun g => (sortDesc g.2).take MAX_VERSIONS_PER_DOC)).flatten).filter
          (fun v => v.docType == k) = [] := by
        apply List.filter_eq_nil_iff.mpr
        intro v hv hc
        rw [beq_iff_eq] at hc
        apply hnd.1
        rw [hk, ← hc]
        exact hmemrest v hv
      rw [hA, hB, List.append_nil]
      rw [show groupContents (g :: rest) k = g.2 from by
        rw [groupContents, if_pos hk]]
    · have hA : ((sortDesc g.2).take MAX_VERSIONS_PER_DOC).filter
          (fun v => v.docType == k) = [] := by
        apply List.filter_eq_nil_iff.mpr
        intro v hv hc
        rw [beq_iff_eq] at hc
        exact hk (by rw [← hmemg v hv, hc])
      rw [hA, List.nil_append, ih k hnd.2 hkey']
      rw [show groupContents (g :: rest) k = groupContents rest k from by
        rw [groupContents, if_neg hk]]

/-- C5: whatever session is persisted, the stored document history keeps at
most `MAX_VERSIONS_PER_DOC` (= 3) versions per docType; the number kept for
a docType is exactly the minimum of 3 and the number originally held; the
kept versions for a docType are (as a multiset) exactly the first 3 of the
descending-timestamp sort of that docType's versions — i.e. the 3 most
recent by timestamp; every evicted version is no newer than every kept one
of the same docType; and the stored history is re-sorted in ascending
timestamp order.  The in-memory session passed to save is arbitrary — it
is not required to be trimmed. -/
theorem claim_C5 (s : Session) (k : Str) :
    (((savedSession s).documentHistory).filter
        (fun v => v.docType == k)).length ≤ MAX_VERSIONS_PER_DOC
    ∧ (((savedSession s).documentHistory).filter
        (fun v => v.docType == k)).length
      = min MAX_VERSIONS_PER_DOC
          (s.documentHistory.filter (fun v => v.docType == k)).length
    ∧ List.Perm (((savedSession s).documentHistory).filter
        (fun v => v.docType == k))
        ((sortDesc (s.documentHistory.filter
          (fun v => v.docType == k))).take MAX_VERSIONS_PER_DOC)
    ∧ List.Pairwise (fun a b => a.timestamp ≤ b.timestamp)
        (savedSession s).documentHistory
    ∧ (∀ v ∈ s.documentHistory, v.docType = k →
        v ∉ (savedSession s).documentHistory →
        ∀ u ∈ (savedSession s).documentHistory, u.docType = k →
          v.timestamp ≤ u.timestamp) := by
  by_cases hemp : 0 < s.documentHistory.length
  case neg =>
    have hnil : s.documentHistory = [] := by
      cases hd : s.documentHistory with
      | nil => rfl
      | cons a t => rw [hd] at hemp; simp at hemp
    have hh : (savedSession s).documentHistory = s.documentHistory := by
      simp [savedSession, trimSession, hemp]
    rw [hh, hnil]
    refine ⟨by simp, by simp [sortDesc], by simp [sortDesc], by simp, ?_⟩
    intro v hv
    simp at hv
  case pos =>
    have hh : (savedSession s).documentHistory = trimHistory s.documentHistory := by
      simp [savedSession, trimSession, hemp]
    have hkept : trimHistory s.documentHistory
        = sortAsc (((groupByDocType s.documentHistory).map
            (fun g => (sortDesc g.2).take MAX_VERSIONS_PER_DOC)).flatten) := by
      rw [trimHistory, foldl_append_flatten]
      rw [List.nil_append]
    have hfil : (((groupByDocType s.documentHistory).map
          (fun g => (sortDesc g.2).take MAX_VERSIONS_PER_DOC)).flatten).filter
          (fun v => v.docType == k)
        = (sortDesc (s.documentHistory.filter
            (fun v => v.docType == k))).take MAX_VERSIONS_PER_DOC := by
      rw [kept_filter (groupByDocType s.documentHistory) k
        (groupByDocType_nodup s.documentHistory)
        (groupByDocType_mem_key s.documentHistory)]
      rw [groupContents_groupBy]
    have hperm : List.Perm (((savedSession s).documentHistory).filter
        (fun v => v.docType == k))
        ((sortDesc (s.documentHistory.filter
          (fun v => v.docType == k))).take MAX_VERSIONS_PER_DOC) := by
      rw [hh, hkept]
      have h1 := (sortAsc_perm (((groupByDocType s.documentHistory).map
        (fun g => (sortDesc g.2).take MAX_VERSIONS_PER_DOC)).flatten)).filter
        (fun v => v.docType == k)
      rw [hfil] at h1
      exact h1
    have hlen : (((savedSession s).documentHistory).filter
        (fun v => v.docType == k)).length
      = min MAX_VERSIONS_PER_DOC
          (s.documentHistory.filter (fun v => v.docType == k)).length := by
      rw [hperm.length_eq, List.length_take,
        (sortDesc_perm (s.documentHistory.filter (fun v => v.docType == k))).length_eq]
    refine ⟨?_, hlen, hperm, ?_, ?_⟩
    · rw [hlen]
      exact Nat.min_le_left _ _
    · rw [hh, hkept]
      exact sortAsc_pairwise _
    · intro v hv hvk hnot u hu huk
      rw [hh, hkept] at hnot hu
      have hvf : v ∈ s.documentHistory.filter (fun v => v.docType == k) :=
        List.mem_filter.mpr ⟨hv, by rw [beq_iff_eq]; exact hvk⟩
      have hvS : v ∈ sortDesc (s.documentHistory.filter (fun v => v.docType == k)) :=
        (sortDesc_perm _).mem_iff.mpr hvf
      have hvnotkept : v ∉ (((groupByDocType s.documentHistory).map
          (fun g => (sortDesc g.2).take MAX_VERSIONS_PER_DOC)).flatten) :=
        fun hc => hnot ((sortAsc_perm _).mem_iff.mpr hc)
      have hvnot3 : v ∉ (sortDesc (s.documentHistory.filter
          (fun v => v.docType == k))).take MAX_VERSIONS_PER_DOC := by
        intro hc
        rw [← hfil] at hc
        exact hvnotkept (List.mem_filter.mp hc).1
      have hvdrop : v ∈ (sortDesc (s.documentHistory.filter
          (fun v => v.docType == k))).drop MAX_VERSIONS_PER_DOC := by
        rw [← List.take_append_drop MAX_VERSIONS_PER_DOC
          (sortDesc (s.documentHistory.filter (fun v => v.docType == k)))] at hvS
        rcases List.mem_append.mp hvS with h1 | h1
        · exact absurd h1 hvnot3
        · exact h1
      have hukept : u ∈ (((groupByDocType s.documentHistory).map
          (fun g => (sortDesc g.2).take MAX_VERSIONS_PER_DOC)).flatten) :=
        (sortAsc_perm _).mem_iff.mp hu
      have hu3 : u ∈ (sortDesc (s.documentHistory.filter
          (fun v => v.docType == k))).take MAX_VERSIONS_PER_DOC := by
        rw [← hfil]
        exact List.mem_filter.mpr ⟨hukept, by rw [beq_iff_eq]; exact huk⟩
      have hP := sortDesc_pairwise (s.documentHistory.filter (fun v => v.docType == k))
      rw [← List.take_append_drop MAX_VERSIONS_PER_DOC
        (sortDesc (s.documentHistory.filter (fun v => v.docType == k)))] at hP
      exact (List.pairwise_append.mp hP).2.2 u hu3 v hvdrop

theorem claim_C5_witness :
    (((savedSession (Session.mk [] []
        [DocVersion.mk "PRD".data "v1".data 1 DocSource.generated,
         DocVersion.mk "PRD".data "v2".data 2 DocSource.edited,
         DocVersion.mk "PRD".data "v3".data 3 DocSource.edited,
         DocVersion.mk "PRD".data "v4".data 4 DocSource.harmonized,
         DocVersion.mk "PRD".data "v5".data 5 DocSource.generated] 0)).documentHistory).filter
        (fun v => v.docType == "PRD".data)).length ≤ MAX_VERSIONS_PER_DOC
    ∧ (((savedSession (Session.mk [] []
        [DocVersion.mk "PRD".data "v1".data 1 DocSource.generated,
         DocVersion.mk "PRD".data "v2".data 2 DocSource.edited,
         DocVersion.mk "PRD".data "v3".data 3 DocSource.edited,
         DocVersion.mk "PRD".data "v4".data 4 DocSource.harmonized,
         DocVersion.mk "PRD".data "v5".data 5 DocSource.generated] 0)).documentHistory).filter
        (fun v => v.docType == "PRD".data)).length
      = min MAX_VERSIONS_PER_DOC
          (((Session.mk ([] : List Str) []
            [DocVersion.mk "PRD".data "v1".data 1 DocSource.generated,
             DocVersion.mk "PRD".data "v2".data 2 DocSource.edited,
             DocVersion.mk "PRD".data "v3".data 3 DocSource.edited,
             DocVersion.mk "PRD".data "v4".data 4 DocSource.harmonized,
             DocVersion.mk "PRD".data "v5".data 5 DocSource.generated] 0).documentHistory).filter
            (fun v => v.docType == "PRD".data)).length
    ∧ List.Perm (((savedSession (Session.mk [] []
        [DocVersion.mk "PRD".data "v1".data 1 DocSource.generated,
         DocVersion.mk "PRD".data "v2".data 2 DocSource.edited,
         DocVersion.mk "PRD".data "v3".data 3 DocSource.edited,
         DocVersion.mk "PRD".data "v4".data 4 DocSource.harmonized,
         DocVersion.mk "PRD".data "v5".data 5 DocSource.generated] 0)).documentHistory).filter
        (fun v => v.docType == "PRD".data))
        ((sortDesc (((Session.mk ([] : List Str) []
          [DocVersion.mk "PRD".data "v1".data 1 DocSource.generated,
           DocVersion.mk "PRD".data "v2".data 2 DocSource.edited,
           DocVersion.mk "PRD".data "v3".data 3 DocSource.edited,
           DocVersion.mk "PRD".data "v4".data 4 DocSource.harmonized,
           DocVersion.mk "PRD".data "v5".data 5 DocSource.generated] 0).documentHistory).filter
          (fun v => v.docType == "PRD".data))).take MAX_VERSIONS_PER_DOC)
    ∧ List.Pairwise (fun a b => a.timestamp ≤ b.timestamp)
        (savedSession (Session.mk [] []
          [DocVersion.mk "PRD".data "v1".data 1 DocSource.generated,
           DocVersion.mk "PRD".data "v2".data 2 DocSource.edited,
           DocVersion.mk "PRD".data "v3".data 3 DocSource.edited,
           DocVersion.mk "PRD".data "v4".data 4 DocSource.harmonized,
           DocVersion.mk "PRD".data "v5".data 5 DocSource.generated] 0)).documentHistory
    ∧ (savedSession (Session.mk [] []
        [DocVersion.mk "PRD".data "v1".data 1 DocSource.generated,
         DocVersion.mk "PRD".data "v2".data 2 DocSource.edited,
         DocVersion.mk "PRD".data "v3".data 3 DocSource.edited,
         DocVersion.mk "PRD".data "v4".data 4 DocSource.harmonized,
         DocVersion.mk "PRD".data "v5".data 5 DocSource.generated] 0)).documentHistory
      = [DocVersion.mk "PRD".data "v3".data 3 DocSource.edited,
         DocVersion.mk "PRD".data "v4".data 4 DocSource.harmonized,
         DocVersion.mk "PRD".data "v5".data 5 DocSource.generated] := by
  have h := claim_C5 (Session.mk [] []
    [DocVersion.mk "PRD".data "v1".data 1 DocSource.generated,
     DocVersion.mk "PRD".data "v2".data 2 DocSource.edited,
     DocVersion.mk "PRD".data "v3".data 3 DocSource.edited,
     DocVersion.mk "PRD".data "v4".data 4 DocSource.harmonized,
     DocVersion.mk "PRD".data "v5".data 5 DocSource.generated] 0) "PRD".data
  exact ⟨h.1, h.2.1, h.2.2.1, h.2.2.2.1, by decide⟩

end Apex
